import Mathlib

/-!
# audio-cpp: effect chain, mixer and tuner

A shallow embedding of the sample-processing code of the repository
(`amplifier/ampg.cpp`, `amplifier/amp.cpp`, `mixer/mix.cpp`,
`tuner-cli/tuner.cpp`) and theorems about it.

Conventions of the embedding:

* a C++ `float`/`double` value is a number, a rational `ℚ` in the effect chain, the
  mixer and the note mapping; the tuner's window and spectrum are over any ordered
  field, `ℚ` for evaluation and `ℝ` for the samples of a sinusoid;
* the mixer and the level of the noise gate (`Amp.noiseGateF32`) round the result of
  every `float` operation to binary32 with `f32` (round to nearest, ties to even,
  subnormals; overflow, infinities and NaN are not modelled); everywhere else the
  arithmetic is exact and rounding is not modelled;
* a `std::vector<float>` is a `List`; a read `v[i]` is `v.getD i 0` and a write
  `v[i] = x` is `v.set i x` (the index bounds are established separately);
* a function that mutates its `AudioData&` argument or its `static` variables returns
  the result together with the new state;
* the C library `sin` is a parameter `sn : ℚ → ℚ` of the functions that call it, and
  the transform computed by the FFTW library is a parameter `spectrum` of the tuner's
  callback.
-/

namespace AudioCpp

/-- C++ `std::min(a, b)`: `b` when `b < a`, else `a`. -/
def stdMin (a b : ℚ) : ℚ := if b < a then b else a

/-- C++ `std::max(a, b)`: `b` when `a < b`, else `a`. -/
def stdMax (a b : ℚ) : ℚ := if a < b then b else a

/-- C++ `static_cast<int>` of a floating value: truncation toward zero. -/
def castInt (x : ℚ) : Int := if 0 ≤ x then ⌊x⌋ else ⌈x⌉

/-! ## binary32 rounding -/

/-- Rounding to the nearest integer, ties to the even one. -/
def roundNearestEven (q : ℚ) : ℤ :=
  if q - ⌊q⌋ < 1 / 2 then ⌊q⌋
  else if 1 / 2 < q - ⌊q⌋ then ⌊q⌋ + 1
  else if ⌊q⌋ % 2 = 0 then ⌊q⌋ else ⌊q⌋ + 1

/-- The exponent of the unit in the last place of binary32 at `x`: 23 below the binary
exponent of `x`, which is at least -126 (below it the values are subnormal). -/
def ulpExponent (x : ℚ) : ℤ := max (Int.log 2 |x|) (-126) - 23

/-- The binary32 result of a `float` operation whose exact result is `x`:
round to nearest, ties to even, with 24 significant bits and subnormals below `2 ^ -126`.
Overflow to infinity is not modelled. -/
def f32 (x : ℚ) : ℚ := (roundNearestEven (x / 2 ^ ulpExponent x) : ℚ) * 2 ^ ulpExponent x

/-- The largest finite binary32 value, `FLT_MAX`. -/
def FLT_MAX : ℚ := (2 ^ 24 - 1) * 2 ^ 104

/-- The rational `x` is a finite binary32 value: rounding leaves it unchanged and it
does not exceed `FLT_MAX` in magnitude. -/
def IsFloat (x : ℚ) : Prop := f32 x = x ∧ |x| ≤ FLT_MAX

/-! ## amplifier/ampg.cpp -/

namespace Ampg

def SAMPLE_RATE : Nat := 44100
def FRAMES_PER_BUFFER : Nat := 256
def MAX_DELAY : Nat := 44100
def MAX_GAIN : ℚ := 2
def FLANGER_DEPTH : Nat := 5
def CHORUS_DEPTH : Nat := 10
def LFO_RATE : ℚ := 1 / 2

/-- The `M_PI` constant of `<cmath>`. -/
def M_PI : ℚ := 3.14159265358979323846

/-- The `AudioData` structure of `ampg.cpp`; `outfile` is the sequence of samples
written to the sound file so far. -/
structure AudioData where
  delayBuffer : List ℚ
  flangerBuffer : List ℚ
  chorusBuffer : List ℚ
  delayIndex : Nat := 0
  flangerIndex : Nat := 0
  chorusIndex : Nat := 0
  gain : ℚ := 1
  delayMix : ℚ := 3 / 10
  reverbMix : ℚ := 2 / 10
  flangerMix : ℚ := 2 / 10
  chorusMix : ℚ := 2 / 10
  recording : Bool := true
  lfoPhase : ℚ := 0
  outfile : List ℚ := []

/-- The `AudioData` that `main` builds before the stream starts: default fields and
three buffers resized to `MAX_DELAY` zeros. -/
def initData : AudioData :=
  { delayBuffer := List.replicate MAX_DELAY 0
    flangerBuffer := List.replicate MAX_DELAY 0
    chorusBuffer := List.replicate MAX_DELAY 0 }

def applyDistortion (sample drive : ℚ) : ℚ :=
  let sample := sample * drive
  stdMax (-1) (stdMin 1 sample)

def applyDelay (data : AudioData) (sample : ℚ) : ℚ × AudioData :=
  let delayedSample := data.delayBuffer.getD data.delayIndex 0
  let data := { data with delayBuffer := data.delayBuffer.set data.delayIndex sample }
  let data := { data with delayIndex := (data.delayIndex + 1) % MAX_DELAY }
  (sample + delayedSample * data.delayMix, data)

def applyReverb (sample reverbMix : ℚ) : ℚ :=
  sample * (1 - reverbMix) + (sample * reverbMix * (1 / 2))

/-- The read index `(cursor + MAX_DELAY - lfoOffset) % MAX_DELAY`, computed in
`size_t` (64-bit unsigned) arithmetic as in the source. -/
def readIndex (cursor : Nat) (lfoOffset : Int) : Nat :=
  ((((cursor : Int) + (MAX_DELAY : Int) - lfoOffset) % (2 ^ 64 : Int)) % (MAX_DELAY : Int)).toNat

def flangerDelaySamples : Nat := (FLANGER_DEPTH * SAMPLE_RATE) / 1000

def chorusDelaySamples : Nat := (CHORUS_DEPTH * SAMPLE_RATE) / 1000

/-- The expression `static_cast<int>((sin(phase) + 1) * 0.5 * delaySamples)`. -/
def lfoOffsetOf (sn : ℚ → ℚ) (phase : ℚ) (delaySamples : Nat) : Int :=
  castInt ((sn phase + 1) * (1 / 2) * (delaySamples : ℚ))

def applyFlanger (sn : ℚ → ℚ) (data : AudioData) (sample : ℚ) : ℚ × AudioData :=
  let delaySamples := flangerDelaySamples
  let lfoOffset := lfoOffsetOf sn data.lfoPhase delaySamples
  let index := readIndex data.flangerIndex lfoOffset
  let delayedSample := data.flangerBuffer.getD index 0
  let data := { data with flangerBuffer := data.flangerBuffer.set data.flangerIndex sample }
  let data := { data with flangerIndex := (data.flangerIndex + 1) % MAX_DELAY }
  let data := { data with lfoPhase := data.lfoPhase + (2 * M_PI * LFO_RATE) / (SAMPLE_RATE : ℚ) }
  (sample + delayedSample * data.flangerMix, data)

def applyChorus (sn : ℚ → ℚ) (data : AudioData) (sample : ℚ) : ℚ × AudioData :=
  let delaySamples := chorusDelaySamples
  let lfoOffset := lfoOffsetOf sn data.lfoPhase delaySamples
  let index := readIndex data.chorusIndex lfoOffset
  let delayedSample := data.chorusBuffer.getD index 0
  let data := { data with chorusBuffer := data.chorusBuffer.set data.chorusIndex sample }
  let data := { data with chorusIndex := (data.chorusIndex + 1) % MAX_DELAY }
  let data := { data with lfoPhase := data.lfoPhase + (2 * M_PI * (LFO_RATE / 2)) / (SAMPLE_RATE : ℚ) }
  (sample + delayedSample * data.chorusMix, data)

/-- One iteration of the loop body of `audioCallback`: the sample written to `out[i]`
and the state after it. -/
def processSample (sn : ℚ → ℚ) (data : AudioData) (x : ℚ) : ℚ × AudioData :=
  let sample := x * data.gain
  let sample := applyDistortion sample 2
  let (sample, data) := applyDelay data sample
  let (sample, data) := applyFlanger sn data sample
  let (sample, data) := applyChorus sn data sample
  let sample := applyReverb sample data.reverbMix
  let data := if data.recording then { data with outfile := data.outfile ++ [sample] } else data
  (sample, data)

/-- The `audioCallback` of `ampg.cpp` on an input block: the output block and the
state after the block. -/
def audioCallback (sn : ℚ → ℚ) : AudioData → List ℚ → List ℚ × AudioData
  | data, [] => ([], data)
  | data, x :: rest =>
    let (y, data) := processSample sn data x
    let (ys, data) := audioCallback sn data rest
    (y :: ys, data)

/-- The state before the `k`-th call (counting from 0) of `applyDelay` on the input
sequence `x`, starting from the initial buffers with `delayMix = m`. -/
def delayState (m : ℚ) (x : Nat → ℚ) : Nat → AudioData
  | 0 => { initData with delayMix := m }
  | k + 1 => (applyDelay (delayState m x k) (x k)).2

/-- The return value of the `k`-th call of `applyDelay` on the input sequence `x`. -/
def delayOut (m : ℚ) (x : Nat → ℚ) (k : Nat) : ℚ :=
  (applyDelay (delayState m x k) (x k)).1

/-- The input `MAX_DELAY` calls before call `i`, zero before the first call. -/
def delayedInput (x : Nat → ℚ) (i : Nat) : ℚ :=
  if i < MAX_DELAY then 0 else x (i - MAX_DELAY)

/-- The contents of a delay line before call `k` on the input sequence `x`. -/
def DelayInv (x : Nat → ℚ) (k : Nat) (d : AudioData) : Prop :=
  d.delayBuffer.length = MAX_DELAY ∧ d.delayIndex = k % MAX_DELAY ∧
    ∀ i, k ≤ i → i < k + MAX_DELAY → d.delayBuffer.getD (i % MAX_DELAY) 0 = delayedInput x i

/-- A key code as returned by `getch()`. -/
def key (c : Char) : Int := (Char.toNat c : Int)

/-- The body of the key handling loop of `main`, without the display refresh. -/
def handleKey (data : AudioData) (ch : Int) : AudioData :=
  let data := if ch = key 'w' then { data with gain := stdMin (data.gain + 1 / 10) MAX_GAIN } else data
  let data := if ch = key 's' then { data with gain := stdMax (data.gain - 1 / 10) (1 / 10) } else data
  let data := if ch = key 'a' then { data with delayMix := stdMax (data.delayMix - 1 / 10) 0 } else data
  let data := if ch = key 'd' then { data with delayMix := stdMin (data.delayMix + 1 / 10) 1 } else data
  let data := if ch = key 'q' then { data with reverbMix := stdMax (data.reverbMix - 1 / 10) 0 } else data
  let data := if ch = key 'e' then { data with reverbMix := stdMin (data.reverbMix + 1 / 10) 1 } else data
  let data := if ch = key 'r' then { data with flangerMix := stdMin (data.flangerMix + 1 / 10) 1 } else data
  let data := if ch = key 'f' then { data with flangerMix := stdMax (data.flangerMix - 1 / 10) 0 } else data
  let data := if ch = key 't' then { data with chorusMix := stdMin (data.chorusMix + 1 / 10) 1 } else data
  let data := if ch = key 'g' then { data with chorusMix := stdMax (data.chorusMix - 1 / 10) 0 } else data
  data

/-- The loop `while ((ch = getch()) != 27)` of `main` on the sequence of values that
`getch()` returns: it stops at the first 27 (ESC) or when the sequence ends. -/
def keyLoop : AudioData → List Int → AudioData
  | data, [] => data
  | data, ch :: rest => if ch = 27 then data else keyLoop (handleKey data ch) rest

/-- The range invariant of the five tunable parameters. -/
def ParamsInRange (d : AudioData) : Prop :=
  (1 / 10 ≤ d.gain ∧ d.gain ≤ MAX_GAIN) ∧ (0 ≤ d.delayMix ∧ d.delayMix ≤ 1) ∧
  (0 ≤ d.reverbMix ∧ d.reverbMix ≤ 1) ∧ (0 ≤ d.flangerMix ∧ d.flangerMix ≤ 1) ∧
  (0 ≤ d.chorusMix ∧ d.chorusMix ≤ 1)

/-- A call of one of the three buffered effects with its input sample. -/
inductive Call where
  | delay (sample : ℚ)
  | flanger (sample : ℚ)
  | chorus (sample : ℚ)

/-- The state after one call of a buffered effect. -/
def applyCall (sn : ℚ → ℚ) (data : AudioData) : Call → AudioData
  | Call.delay x => (applyDelay data x).2
  | Call.flanger x => (applyFlanger sn data x).2
  | Call.chorus x => (applyChorus sn data x).2

/-- The state after a sequence of calls of the buffered effects. -/
def applyCalls (sn : ℚ → ℚ) (data : AudioData) (calls : List Call) : AudioData :=
  calls.foldl (applyCall sn) data

/-- The three cursors are inside their buffers of `MAX_DELAY` entries. -/
def CursorsInRange (d : AudioData) : Prop :=
  (d.delayBuffer.length = MAX_DELAY ∧ d.flangerBuffer.length = MAX_DELAY ∧
    d.chorusBuffer.length = MAX_DELAY) ∧
  d.delayIndex < MAX_DELAY ∧ d.flangerIndex < MAX_DELAY ∧ d.chorusIndex < MAX_DELAY

/-- The state of the effect chain before sample `k` of a stream of samples `1.0` under
the default parameters: the delay line holds the distorted samples, and the flanger and
chorus buffers hold non-negative values. -/
def ChainInv (k : Nat) (d : AudioData) : Prop :=
  DelayInv (fun _ => 1) k d ∧
  (d.gain = 1 ∧ d.delayMix = 3 / 10 ∧ d.reverbMix = 2 / 10 ∧ d.flangerMix = 2 / 10 ∧
    d.chorusMix = 2 / 10) ∧
  (∀ v ∈ d.flangerBuffer, (0 : ℚ) ≤ v) ∧ (∀ v ∈ d.chorusBuffer, (0 : ℚ) ≤ v)

end Ampg


/-! ## tuner-cli/tuner.cpp -/

namespace Tuner

def SAMPLE_RATE : Nat := 44100
def FRAMES_PER_BUFFER : Nat := 1024
def FFT_SIZE : Nat := 2048

/-- The `notes` table, in the iteration order of `std::map<std::string, float>`
(ascending key order). -/
def notes : List (String × ℚ) :=
  [("A", 27.50), ("A#", 29.14), ("B", 30.87), ("C", 16.35), ("C#", 17.32), ("D", 18.35),
   ("D#", 19.45), ("E", 20.60), ("F", 21.83), ("F#", 23.12), ("G", 24.50), ("G#", 25.96)]

/-- The three local variables of `getClosestNoteWithOctave`. -/
structure Closest where
  closestNote : String
  minDiff : ℚ
  octave : Nat
  deriving DecidableEq

/-- The body of the inner loop of `getClosestNoteWithOctave`. -/
def noteStep (freq : ℚ) (o : Nat) (st : Closest) (pair : String × ℚ) : Closest :=
  let noteFreq := pair.2 * 2 ^ o
  let diff := |freq - noteFreq|
  if diff < st.minDiff then { closestNote := pair.1, minDiff := diff, octave := o } else st

/-- The inner loop `for (const auto& pair : notes)`. -/
def noteLoop (freq : ℚ) (st : Closest) (o : Nat) : Closest :=
  notes.foldl (noteStep freq o) st

/-- The locals of `getClosestNoteWithOctave` after both loops. -/
def closestSearch (freq : ℚ) : Closest :=
  (List.range 9).foldl (noteLoop freq) { closestNote := "?", minDiff := 10 ^ 9, octave := 0 }

def getClosestNoteWithOctave (freq : ℚ) : String × Nat :=
  let r := closestSearch freq
  (r.closestNote, r.octave)

/-- The locals of `getClosestNoteWithOctave` hold a table note, an octave in `0..8` and
the distance of `freq` to that candidate. -/
def Found (freq : ℚ) (st : Closest) : Prop :=
  ∃ b, (st.closestNote, b) ∈ notes ∧ st.octave ≤ 8 ∧ st.minDiff = |freq - b * 2 ^ st.octave|

/-- The two `static` variables of the tuner's `audioCallback`; `α` is the type of a
sample. -/
structure TunerState (α : Type) where
  audioData : List α
  sampleIndex : Nat

/-- The initial statics: `audioData(FFT_SIZE, 0.0f)` and `sampleIndex = 0`. -/
def initState {α : Type} [Zero α] : TunerState α :=
  { audioData := List.replicate FFT_SIZE 0, sampleIndex := 0 }

/-- The loop that stores the block into the analysis window. -/
def accumulate {α : Type} : TunerState α → List α → TunerState α
  | st, [] => st
  | st, x :: rest =>
    accumulate
      { audioData := st.audioData.set st.sampleIndex x
        sampleIndex := (st.sampleIndex + 1) % FFT_SIZE } rest

/-- The peak search loop `for (...; i < FFT_SIZE / 2; i++)` with `n` iterations left,
loop counter `i` and locals `peakIndex`, `peakMagnitude`; `magnitude i` is the value
`sqrt(out[i][0] * out[i][0] + out[i][1] * out[i][1])` of bin `i`. The result is the
final `peakIndex`. -/
def peakLoop {α : Type} [LinearOrderedField α] (magnitude : Nat → α) :
    Nat → Nat → Nat → α → Nat
  | 0, _, peakIndex, _ => peakIndex
  | n + 1, i, peakIndex, peakMagnitude =>
    if magnitude i > peakMagnitude then peakLoop magnitude n (i + 1) i (magnitude i)
    else peakLoop magnitude n (i + 1) peakIndex peakMagnitude

/-- The peak search of the callback: the loop from `i = 1` up to `FFT_SIZE / 2 - 1` with
`peakIndex = 0` and `peakMagnitude = 0.0`. -/
def peakSearch {α : Type} [LinearOrderedField α] (magnitude : Nat → α) : Nat :=
  peakLoop magnitude (FFT_SIZE / 2 - 1) 1 0 0

/-- The expression `(float)peakIndex * SAMPLE_RATE / FFT_SIZE`. -/
def peakFrequencyOf (peakIndex : Nat) : ℚ :=
  (peakIndex : ℚ) * (SAMPLE_RATE : ℚ) / (FFT_SIZE : ℚ)

/-- What a detection step prints. -/
structure Detection where
  peakFrequency : ℚ
  detectedNote : String
  detectedOctave : Nat

/-- The detection step on the bin magnitudes of the window. -/
def detect {α : Type} [LinearOrderedField α] (magnitude : Nat → α) : Detection :=
  let peakIndex := peakSearch magnitude
  let peakFrequency := peakFrequencyOf peakIndex
  let detected := getClosestNoteWithOctave peakFrequency
  { peakFrequency := peakFrequency, detectedNote := detected.1, detectedOctave := detected.2 }

/-- The tuner's `audioCallback`. The input is `none` for a null `inputBuffer`;
`spectrum w i` is the magnitude of bin `i` of the FFTW real-to-complex transform of the
window `w`. The result is the statics after the call and the detection, if one ran. -/
def audioCallback {α : Type} [LinearOrderedField α] (spectrum : List α → Nat → α)
    (st : TunerState α) : Option (List α) → TunerState α × Option Detection
  | none => (st, none)
  | some block =>
    let st := accumulate st block
    if st.sampleIndex = 0 then (st, some (detect (spectrum st.audioData))) else (st, none)

/-- The locals of the peak search loop before bin `j` is examined. -/
def PeakInv {α : Type} [LinearOrderedField α] (magnitude : Nat → α) (j peakIndex : Nat)
    (peakMagnitude : α) : Prop :=
  (∀ i, 1 ≤ i → i < j → magnitude i ≤ peakMagnitude) ∧
  ((peakIndex = 0 ∧ peakMagnitude = 0) ∨
   (1 ≤ peakIndex ∧ peakIndex < j ∧ peakMagnitude = magnitude peakIndex ∧
     0 < peakMagnitude ∧ ∀ i, 1 ≤ i → i < peakIndex → magnitude i < peakMagnitude))

/-- The state after a stream of callbacks, one per input block. -/
def runCallbacks {α : Type} [LinearOrderedField α] (spectrum : List α → Nat → α) :
    TunerState α → List (List α) → TunerState α
  | st, [] => st
  | st, b :: bs => runCallbacks spectrum (audioCallback spectrum st (some b)).1 bs

/-- The write cursor returned to 0 while the samples of the block were being written:
some iteration of the storing loop left `sampleIndex = 0`. -/
def cursorWrapped {α : Type} : TunerState α → List α → Bool
  | _, [] => false
  | st, x :: rest =>
    ((st.sampleIndex + 1) % FFT_SIZE == 0) ||
      cursorWrapped
        { audioData := st.audioData.set st.sampleIndex x
          sampleIndex := (st.sampleIndex + 1) % FFT_SIZE } rest

/-- Modelled from the spec: the "real-input discrete Fourier transform" of the window,
which the callback obtains from the FFTW library (`fftw_plan_dft_r2c_1d`, not part of the
repository). Output bin `k` is the sum over `n < FFT_SIZE` of
`window[n] * exp (-2 π i k n / FFT_SIZE)`. -/
noncomputable def dft (window : List ℝ) (k : Nat) : ℂ :=
  ∑ n ∈ Finset.range FFT_SIZE,
    (window.getD n 0 : ℂ) *
      Complex.exp ((-(2 * Real.pi * (k : ℝ) * (n : ℝ) / (FFT_SIZE : ℝ)) : ℝ) * Complex.I)

/-- The value `sqrt(out[i][0] * out[i][0] + out[i][1] * out[i][1])` that the peak search
computes for bin `i` of the transform of the window. -/
noncomputable def dftMagnitude (window : List ℝ) (i : Nat) : ℝ :=
  Real.sqrt ((dft window i).re * (dft window i).re + (dft window i).im * (dft window i).im)

/-- Sample `n` of a pure sinusoid of amplitude `A`, frequency `f` (in Hz) and initial
phase `φ`, sampled at `SAMPLE_RATE`. -/
noncomputable def sinusoid (A f φ : ℝ) (n : Nat) : ℝ :=
  A * Real.sin (2 * Real.pi * f * (n : ℝ) / (SAMPLE_RATE : ℝ) + φ)

/-- The input block holding samples `start, ..., start + len - 1` of the sinusoid. -/
noncomputable def sinusoidBlock (A f φ : ℝ) (start len : Nat) : List ℝ :=
  (List.range' start len).map (sinusoid A f φ)

/-- The sum of the `N` unit phasors `exp (i a n)`, `n < N`. -/
noncomputable def expSum (N : Nat) (a : ℝ) : ℂ :=
  ∑ n ∈ Finset.range N, Complex.exp ((a * n : ℝ) * Complex.I)

end Tuner

/-! ## amplifier/amp.cpp -/

namespace Amp

/-- The `noiseGate` function in exact arithmetic; its `static float gateLevel` is passed
in and returned next to the result. -/
def noiseGate (gateLevel sample threshold : ℚ) (release : ℚ := 99 / 100) : ℚ × ℚ :=
  let gateLevel := if |sample| > threshold then 1 else gateLevel * release
  (sample * gateLevel, gateLevel)

def lowPassFilter (input previous : ℚ) (alpha : ℚ := 1 / 10) : ℚ :=
  alpha * input + (1 - alpha) * previous

def highPassFilter (input previous : ℚ) (alpha : ℚ := 9 / 10) : ℚ :=
  alpha * (previous + input - previous)

/-- The `gateLevel` in exact arithmetic after a sequence of `noiseGate` calls from level `g`. -/
def gateRun (threshold release : ℚ) : ℚ → List ℚ → ℚ
  | g, [] => g
  | g, x :: xs => gateRun threshold release (noiseGate g x threshold release).2 xs

/-- The three `std::atomic<float>` parameters of `amp.cpp` with their initial values. A
callback reads them for every sample; here they are fixed during one call. -/
structure Params where
  gain : ℚ := 2
  volume : ℚ := 1
  noiseThreshold : ℚ := 5 / 1000

/-- The `static` variables of `noiseGate` and of `audioCallback`. -/
structure State where
  gateLevel : ℚ := 0
  prevSample : ℚ := 0

/-- One iteration of the loop of `audioCallback`: the value left in `out[i]` and the
statics after it. -/
def processSample (p : Params) (st : State) (x : ℚ) : ℚ × State :=
  let sample := x
  let (sample, gateLevel) := noiseGate st.gateLevel sample p.noiseThreshold
  let sample := lowPassFilter sample st.prevSample
  let sample := highPassFilter sample st.prevSample
  let prevSample := sample
  let out := sample * p.gain * p.volume
  let out := if out > 1 then 1 else out
  let out := if out < -1 then -1 else out
  (out, { gateLevel := gateLevel, prevSample := prevSample })

/-- The loop of `audioCallback` over an input block. -/
def processBlock (p : Params) : State → List ℚ → List ℚ × State
  | st, [] => ([], st)
  | st, x :: rest =>
    let (y, st) := processSample p st x
    let (ys, st) := processBlock p st rest
    (y :: ys, st)

/-- The `audioCallback` of `amp.cpp`; the input is `none` for a null `inputBuffer`, for
which nothing is written. -/
def audioCallback (p : Params) (st : State) : Option (List ℚ) → List ℚ × State
  | none => ([], st)
  | some block => processBlock p st block

/-- The statics of the simple chain before input sample `n` of the stream `x`, from their
initial values (`gateLevel = 0`, `prevSample = 0`). -/
def chainState (p : Params) (x : Nat → ℚ) : Nat → State
  | 0 => {}
  | n + 1 => (processSample p (chainState p x n) (x n)).2

/-- The noise-gated sample `n` of the stream `x`: the value `noiseGate` returns for it. -/
def gated (p : Params) (x : Nat → ℚ) (n : Nat) : ℚ :=
  (noiseGate (chainState p x n).gateLevel (x n) p.noiseThreshold).1

/-- The value left in `out[i]` for input sample `n` of the stream `x`. -/
def written (p : Params) (x : Nat → ℚ) (n : Nat) : ℚ :=
  (processSample p (chainState p x n) (x n)).1

end Amp

/-! ## mixer/mix.cpp -/

namespace Mixer

def SAMPLE_RATE : Nat := 44100
def FRAMES_PER_BUFFER : Nat := 512

structure AudioData where
  buffer1 : List ℚ
  buffer2 : List ℚ
  outputBuffer : List ℚ := []
  index : Nat := 0

/-- One iteration of the loop of `audioCallback`: the value written to `out[i]` and the
state after it. The two products by `0.5f` and their sum are `float` operations, each
rounded to binary32. -/
def mixStep (data : AudioData) : ℚ × AudioData :=
  if data.index < data.buffer1.length ∧ data.index < data.buffer2.length then
    let mixedSample :=
      f32 (f32 (data.buffer1.getD data.index 0 * (1 / 2)) +
        f32 (data.buffer2.getD data.index 0 * (1 / 2)))
    (mixedSample,
      { data with outputBuffer := data.outputBuffer ++ [mixedSample], index := data.index + 1 })
  else
    (0, data)

/-- The loop of `audioCallback` run `n` times. -/
def mixLoop : Nat → AudioData → List ℚ × AudioData
  | 0, data => ([], data)
  | n + 1, data =>
    let (y, data) := mixStep data
    let (ys, data) := mixLoop n data
    (y :: ys, data)

/-- The mixer's `audioCallback`: the samples written to the device and the state after
the call. -/
def audioCallback (data : AudioData) (framesPerBuffer : Nat) : List ℚ × AudioData :=
  mixLoop (framesPerBuffer * 2) data

/-- The state after a sequence of callbacks with the given `framesPerBuffer` values. -/
def runCallbacks : AudioData → List Nat → AudioData
  | data, [] => data
  | data, f :: fs => runCallbacks (audioCallback data f).2 fs

/-- The number of samples requested by a sequence of callbacks. -/
def requested (fs : List Nat) : Nat := (fs.map (fun f => f * 2)).sum

/-- The mixed sample that `mixStep` computes when both buffers hold `x` at the index. -/
def mixSelf (x : ℚ) : ℚ := f32 (f32 (x * (1 / 2)) + f32 (x * (1 / 2)))

/-- Halving `x` is exact in binary32: `x` is a finite `float` that is zero or of
magnitude at least `2 ^ -125`. -/
def HalvesExactly (x : ℚ) : Prop := IsFloat x ∧ (x = 0 ∨ 2 ^ (-125 : ℤ) ≤ |x|)

/-- The mixer state when both inputs are the buffer `b`: the captured output is the
mix with itself of each sample of the prefix of `b` of length `index`. -/
def MixInv (b : List ℚ) (d : AudioData) : Prop :=
  d.buffer1 = b ∧ d.buffer2 = b ∧ d.index ≤ b.length ∧
    d.outputBuffer = (b.take d.index).map mixSelf

end Mixer
/-! ## Theorems: binary32 rounding -/

theorem roundNearestEven_intCast (n : ℤ) : roundNearestEven (n : ℚ) = n := by
  unfold roundNearestEven
  simp

theorem two_zpow_pos (e : ℤ) : (0 : ℚ) < 2 ^ e := zpow_pos (by norm_num) e

theorem two_zpow_split (a b : ℤ) : (2 : ℚ) ^ (a + b) = 2 ^ a * 2 ^ b :=
  zpow_add₀ (by norm_num) a b

theorem f32_zero : f32 0 = 0 := by
  unfold f32
  simp [roundNearestEven]

/-- A multiple of a power of two at or above the unit in the last place is representable. -/
theorem f32_of_grid (v : ℚ) (n e : ℤ) (hv : v = (n : ℚ) * 2 ^ e) (he : ulpExponent v ≤ e) :
    f32 v = v := by
  unfold f32
  obtain ⟨u, hu⟩ : ∃ u, ulpExponent v = u := ⟨_, rfl⟩
  rw [hu] at he ⊢
  obtain ⟨k, hk⟩ := Int.eq_ofNat_of_zero_le (sub_nonneg.mpr he)
  have hsplit : (2 : ℚ) ^ e = ((2 ^ k : ℤ) : ℚ) * 2 ^ u := by
    have : e = (k : ℤ) + u := by omega
    rw [this, two_zpow_split, zpow_natCast]
    push_cast
    rfl
  have hq : v / 2 ^ u = ((n * 2 ^ k : ℤ) : ℚ) := by
    rw [div_eq_iff (ne_of_gt (two_zpow_pos _)), hv, hsplit]
    push_cast
    ring
  rw [hq, roundNearestEven_intCast, ← hq]
  exact div_mul_cancel₀ _ (ne_of_gt (two_zpow_pos _))

theorem log_eq_of_bounds {r : ℚ} {k : ℤ} (h1 : 2 ^ k ≤ r) (h2 : r < 2 ^ (k + 1)) :
    Int.log 2 r = k := by
  have hr : 0 < r := lt_of_lt_of_le (two_zpow_pos k) h1
  have a : k ≤ Int.log 2 r :=
    (Int.zpow_le_iff_le_log (by norm_num) hr).mp (by exact_mod_cast h1)
  have b : Int.log 2 r < k + 1 :=
    (Int.lt_zpow_iff_log_lt (by norm_num) hr).mp (by exact_mod_cast h2)
  omega

theorem ulpExponent_of_bounds {x : ℚ} {k : ℤ} (hk : -126 ≤ k) (h1 : 2 ^ k ≤ |x|)
    (h2 : |x| < 2 ^ (k + 1)) : ulpExponent x = k - 23 := by
  unfold ulpExponent
  rw [log_eq_of_bounds h1 h2, max_eq_left hk]

theorem ulpExponent_of_small {x : ℚ} (hx : x ≠ 0) (h : |x| < 2 ^ (-126 : ℤ)) :
    ulpExponent x = -149 := by
  unfold ulpExponent
  have hl : Int.log 2 |x| ≤ -126 := by
    have : Int.log 2 |x| < -126 :=
      (Int.lt_zpow_iff_log_lt (by norm_num) (abs_pos.mpr hx)).mp (by exact_mod_cast h)
    omega
  rw [max_eq_right hl]
  norm_num

theorem ulpExponent_le_of_lt {x : ℚ} {k : ℤ} (hx : x ≠ 0) (hk : -126 ≤ k)
    (h : |x| < 2 ^ (k + 1)) : ulpExponent x ≤ k - 23 := by
  unfold ulpExponent
  have hl : Int.log 2 |x| ≤ k := by
    have : Int.log 2 |x| < k + 1 :=
      (Int.lt_zpow_iff_log_lt (by norm_num) (abs_pos.mpr hx)).mp (by exact_mod_cast h)
    omega
  have := max_le hl hk
  omega

theorem f32_one : f32 1 = 1 := by
  apply f32_of_grid 1 (2 ^ 23) (-23)
  · norm_num
  · apply le_of_eq
    have := ulpExponent_of_bounds (x := 1) (k := 0) (by norm_num) (by norm_num) (by norm_num)
    rw [this]
    norm_num

/-- A representable value is a multiple of its unit in the last place. -/
theorem eq_mul_ulp_of_f32_eq {x : ℚ} (h : f32 x = x) :
    x = (roundNearestEven (x / 2 ^ ulpExponent x) : ℚ) * 2 ^ ulpExponent x := by
  unfold f32 at h
  exact h.symm

/-- Halving a representable value of magnitude at least `2 ^ -125` is exact. -/
theorem f32_half {x : ℚ} (h : f32 x = x) (hbig : 2 ^ (-125 : ℤ) ≤ |x|) :
    f32 (x * (1 / 2)) = x * (1 / 2) := by
  have hxpos : 0 < |x| := lt_of_lt_of_le (two_zpow_pos _) hbig
  have hx : x ≠ 0 := abs_pos.mp hxpos
  have hL : -125 ≤ Int.log 2 |x| :=
    (Int.zpow_le_iff_le_log (by norm_num) hxpos).mp (by exact_mod_cast hbig)
  have hE : ulpExponent x = Int.log 2 |x| - 23 := by
    unfold ulpExponent
    rw [max_eq_left (by omega)]
  have hrep := eq_mul_ulp_of_f32_eq h
  apply f32_of_grid (x * (1 / 2)) (roundNearestEven (x / 2 ^ ulpExponent x)) (ulpExponent x - 1)
  · have e : (2 : ℚ) ^ (ulpExponent x - 1) = 2 ^ ulpExponent x * (1 / 2) := by
      have : ulpExponent x - 1 = ulpExponent x + (-1) := by omega
      rw [this, two_zpow_split]
      norm_num
    rw [e, ← mul_assoc, ← hrep]
  · have hlt : |x * (1 / 2)| < 2 ^ (Int.log 2 |x| - 1 + 1) := by
      have h1 : |x| < ((2 : ℕ) : ℚ) ^ (Int.log 2 |x| + 1) :=
        Int.lt_zpow_succ_log_self (by norm_num) _
      have h2 : (2 : ℚ) ^ (Int.log 2 |x| + 1) = 2 ^ (Int.log 2 |x| - 1 + 1) * 2 := by
        have : Int.log 2 |x| + 1 = (Int.log 2 |x| - 1 + 1) + 1 := by omega
        rw [this, two_zpow_split]
        norm_num
      rw [abs_mul, abs_of_pos (by norm_num : (0 : ℚ) < 1 / 2)]
      have h3 : |x| < 2 ^ (Int.log 2 |x| - 1 + 1) * 2 := by
        rw [← h2]
        exact_mod_cast h1
      linarith
    have := ulpExponent_le_of_lt (x := x * (1 / 2)) (k := Int.log 2 |x| - 1)
      (mul_ne_zero hx (by norm_num)) (by omega) hlt
    omega

/-- The smallest subnormal halves to a tie, which rounds to zero. -/
theorem f32_half_min_subnormal : f32 (2 ^ (-149 : ℤ) * (1 / 2)) = 0 := by
  have hE : ulpExponent ((2 : ℚ) ^ (-149 : ℤ) * (1 / 2)) = -149 := by
    apply ulpExponent_of_small (by norm_num)
    rw [abs_of_pos (by norm_num)]
    norm_num
  unfold f32
  rw [hE]
  have hq : (2 : ℚ) ^ (-149 : ℤ) * (1 / 2) / 2 ^ (-149 : ℤ) = 1 / 2 := by
    field_simp
  rw [hq]
  have hfl : ⌊(1 / 2 : ℚ)⌋ = 0 := by
    rw [Int.floor_eq_iff]
    constructor <;> norm_num
  have hr : roundNearestEven (1 / 2) = 0 := by
    unfold roundNearestEven
    rw [hfl]
    norm_num
  rw [hr]
  norm_num

namespace Tuner

theorem accumulate_inv {α : Type} (block : List α) (st : TunerState α) (h1 : st.sampleIndex < FFT_SIZE)
    (h2 : st.audioData.length = FFT_SIZE) :
    (accumulate st block).sampleIndex < FFT_SIZE ∧
    (accumulate st block).audioData.length = FFT_SIZE := by
  induction block generalizing st with
  | nil => exact ⟨h1, h2⟩
  | cons x rest ih =>
    simp only [accumulate]
    exact ih _ (Nat.mod_lt _ (by decide)) (by simp [h2])

end Tuner

/-! ## Theorems: amplifier/ampg.cpp -/

namespace Ampg

theorem mod_ne_of_lt_of_lt {N k i : Nat} (h1 : k < i) (h2 : i < k + N) : i % N ≠ k % N := by
  intro h
  have hd : N ∣ i - k := (Nat.modEq_iff_dvd' (le_of_lt h1)).mp h.symm
  have := Nat.le_of_dvd (by omega) hd
  omega

theorem delayInv_init (x : Nat → ℚ) (d : AudioData)
    (hb : d.delayBuffer = List.replicate MAX_DELAY 0) (hi : d.delayIndex = 0) :
    DelayInv x 0 d := by
  refine ⟨by simp [hb], by simp [hi], ?_⟩
  intro i _ hi2
  have hlt : i < MAX_DELAY := by omega
  have hm : i % MAX_DELAY < MAX_DELAY := Nat.mod_lt _ (by decide)
  simp [hb, delayedInput, hlt, List.getD_eq_getElem?_getD, List.getElem?_replicate, hm]

theorem delayInv_step (x : Nat → ℚ) (k : Nat) (d : AudioData) (h : DelayInv x k d) :
    DelayInv x (k + 1) (applyDelay d (x k)).2 := by
  obtain ⟨hlen, hidx, hbuf⟩ := h
  have hN : 0 < MAX_DELAY := by decide
  refine ⟨by simp [applyDelay, hlen], ?_, ?_⟩
  · simp [applyDelay, hidx]
  · intro i h1 h2
    have hk : k % MAX_DELAY < d.delayBuffer.length := by rw [hlen]; exact Nat.mod_lt _ hN
    by_cases hik : i = k + MAX_DELAY
    · subst hik
      have : ¬ (k + MAX_DELAY < MAX_DELAY) := by omega
      simp [applyDelay, hidx, delayedInput, this, List.getD_eq_getElem?_getD, hk]
    · have hne : k % MAX_DELAY ≠ i % MAX_DELAY :=
        fun e => mod_ne_of_lt_of_lt (N := MAX_DELAY) (k := k) (i := i) (by omega) (by omega) e.symm
      have := hbuf i (by omega) (by omega)
      simp only [applyDelay, hidx, List.getD_eq_getElem?_getD] at this ⊢
      rw [List.getElem?_set_ne hne]
      exact this

theorem delayState_inv (m : ℚ) (x : Nat → ℚ) (k : Nat) :
    DelayInv x k (delayState m x k) ∧ (delayState m x k).delayMix = m := by
  induction k with
  | zero => exact ⟨delayInv_init x _ rfl rfl, rfl⟩
  | succ k ih => exact ⟨delayInv_step x k _ ih.1, by simpa [delayState, applyDelay] using ih.2⟩

theorem delayInv_read (x : Nat → ℚ) (k : Nat) (d : AudioData) (h : DelayInv x k d) :
    d.delayBuffer.getD d.delayIndex 0 = delayedInput x k := by
  rw [h.2.1]
  exact h.2.2 k (le_refl _) (by have : 0 < MAX_DELAY := by decide
                                omega)

/-- C1: `applyDelay` is an exact `MAX_DELAY`-sample delay line. From zero buffers,
cursor 0 and a fixed `delayMix = m`, the `k`-th return value is
`x_k + x_(k-MAX_DELAY) * m` (with `x_j = 0` for `j < 0`); with `m = 0` it is `x_k`; and
the delayed sample read by call `k + MAX_DELAY` is the input of call `k`. -/
theorem applyDelay_delay_line (m : ℚ) (x : Nat → ℚ) (k : Nat) :
    delayOut m x k = x k + delayedInput x k * m ∧
    (m = 0 → delayOut m x k = x k) ∧
    (delayState m x (k + MAX_DELAY)).delayBuffer.getD
      (delayState m x (k + MAX_DELAY)).delayIndex 0 = x k := by
  have key : ∀ j, delayOut m x j = x j + delayedInput x j * m := by
    intro j
    obtain ⟨hinv, hmix⟩ := delayState_inv m x j
    have hr := delayInv_read x j _ hinv
    simp only [delayOut, applyDelay]
    rw [hr, hmix]
  refine ⟨key k, ?_, ?_⟩
  · intro hm
    rw [key k, hm, mul_zero, add_zero]
  · rw [delayInv_read x (k + MAX_DELAY) _ (delayState_inv m x (k + MAX_DELAY)).1]
    have : ¬ (k + MAX_DELAY < MAX_DELAY) := by omega
    simp [delayedInput, this]

theorem stdMin_eq (a b : ℚ) : stdMin a b = min a b := by
  unfold stdMin
  split_ifs with h
  · exact (min_eq_right (le_of_lt h)).symm
  · exact (min_eq_left (not_lt.mp h)).symm

theorem stdMax_eq (a b : ℚ) : stdMax a b = max a b := by
  unfold stdMax
  split_ifs with h
  · exact (max_eq_right (le_of_lt h)).symm
  · exact (max_eq_left (not_lt.mp h)).symm

/-- C2: `applyDistortion sample drive` is `sample * drive` clamped to `[-1, 1]`: it lies
in `[-1, 1]` for every sample and drive, and it is `sample * drive` itself whenever
`-1 ≤ sample * drive ≤ 1`. -/
theorem applyDistortion_clamp (sample drive : ℚ) :
    applyDistortion sample drive = max (-1) (min 1 (sample * drive)) ∧
    (-1 ≤ applyDistortion sample drive ∧ applyDistortion sample drive ≤ 1) ∧
    (-1 ≤ sample * drive → sample * drive ≤ 1 →
      applyDistortion sample drive = sample * drive) := by
  have h : applyDistortion sample drive = max (-1) (min 1 (sample * drive)) := by
    simp only [applyDistortion, stdMax_eq, stdMin_eq]
  refine ⟨h, ?_, ?_⟩
  · rw [h]
    exact ⟨le_max_left _ _, max_le (by norm_num) (min_le_left _ _)⟩
  · intro h1 h2
    rw [h, min_eq_right h2, max_eq_right h1]

/-- C2 at `sample = 1/4`, `drive = 2`: the product `1/2` is inside `[-1, 1]` and is
returned unchanged. -/
theorem applyDistortion_clamp_witness : applyDistortion (1 / 4) 2 = 1 / 4 * 2 :=
  (applyDistortion_clamp (1 / 4) 2).2.2 (by norm_num) (by norm_num)

/-- C1 at `m = 0`, constant input 1, first call: the output is the input. -/
theorem applyDelay_delay_line_witness : delayOut 0 (fun _ => 1) 0 = 1 :=
  (applyDelay_delay_line 0 (fun _ => 1) 0).2.1 rfl

theorem getD_nonneg (l : List ℚ) (h : ∀ v ∈ l, (0 : ℚ) ≤ v) (i : Nat) : 0 ≤ l.getD i 0 := by
  rw [List.getD_eq_getElem?_getD]
  cases hi : l[i]? with
  | none => simp
  | some v => exact h v (List.getElem?_mem hi)

theorem set_nonneg (l : List ℚ) (h : ∀ v ∈ l, (0 : ℚ) ≤ v) (i : Nat) (a : ℚ) (ha : 0 ≤ a) :
    ∀ v ∈ l.set i a, (0 : ℚ) ≤ v := by
  intro v hv
  rcases List.mem_or_eq_of_mem_set hv with hv | rfl
  · exact h v hv
  · exact ha

theorem audioCallback_append (sn : ℚ → ℚ) (xs ys : List ℚ) (d : AudioData) :
    audioCallback sn d (xs ++ ys) =
      ((audioCallback sn d xs).1 ++ (audioCallback sn (audioCallback sn d xs).2 ys).1,
        (audioCallback sn (audioCallback sn d xs).2 ys).2) := by
  induction xs generalizing d with
  | nil => simp [audioCallback]
  | cons x xs ih => simp [audioCallback, ih]

theorem audioCallback_single (sn : ℚ → ℚ) (d : AudioData) (x : ℚ) :
    (audioCallback sn d [x]).1 = [(processSample sn d x).1] := by
  simp [audioCallback]

theorem processSample_one (sn : ℚ → ℚ) (k : Nat) (d : AudioData) (h : ChainInv k d) :
    ChainInv (k + 1) (processSample sn d 1).2 ∧
    9 / 10 * (1 + delayedInput (fun _ => 1) k * (3 / 10)) ≤ (processSample sn d 1).1 := by
  obtain ⟨hdelay, ⟨hg, hdm, hrm, hfm, hcm⟩, hfl, hch⟩ := h
  have hdist : applyDistortion (1 * d.gain) 2 = 1 := by
    rw [hg]
    norm_num [applyDistortion, stdMax, stdMin]
  have hread := delayInv_read _ k d hdelay
  have hstep := delayInv_step _ k d hdelay
  have hdin : 0 ≤ delayedInput (fun _ => (1 : ℚ)) k := by
    unfold delayedInput
    split_ifs <;> norm_num
  -- the values produced by the three buffered stages
  set a := 1 + delayedInput (fun _ => (1 : ℚ)) k * (3 / 10) with ha
  set fd := d.flangerBuffer.getD
    (readIndex d.flangerIndex (lfoOffsetOf sn d.lfoPhase flangerDelaySamples)) 0 with hfd
  set cd := d.chorusBuffer.getD
    (readIndex d.chorusIndex (lfoOffsetOf sn
      (d.lfoPhase + (2 * M_PI * LFO_RATE) / (SAMPLE_RATE : ℚ)) chorusDelaySamples)) 0 with hcd
  have hfd0 : 0 ≤ fd := getD_nonneg _ hfl _
  have hcd0 : 0 ≤ cd := getD_nonneg _ hch _
  have ha0 : 0 ≤ a := by rw [ha]; positivity
  have hout : (processSample sn d 1).1 =
      applyReverb (a + fd * (2 / 10) + cd * (2 / 10)) (2 / 10) := by
    simp only [processSample, applyDelay, applyFlanger, applyChorus, hdist, hread, hdm, hfm,
      hcm, hrm]
  refine ⟨⟨?_, ⟨?_, ?_, ?_, ?_, ?_⟩, ?_, ?_⟩, ?_⟩
  · have e : DelayInv (fun _ => (1 : ℚ)) (k + 1) (applyDelay d 1).2 := hstep
    obtain ⟨e1, e2, e3⟩ := e
    refine ⟨?_, ?_, ?_⟩
    · simp only [processSample, applyDelay, applyFlanger, applyChorus, hdist] at e1 ⊢
      split_ifs <;> exact e1
    · simp only [processSample, applyDelay, applyFlanger, applyChorus, hdist] at e2 ⊢
      split_ifs <;> exact e2
    · simp only [processSample, applyDelay, applyFlanger, applyChorus, hdist] at e3 ⊢
      split_ifs <;> exact e3
  · simp only [processSample, applyDelay, applyFlanger, applyChorus]
    split_ifs <;> exact hg
  · simp only [processSample, applyDelay, applyFlanger, applyChorus]
    split_ifs <;> exact hdm
  · simp only [processSample, applyDelay, applyFlanger, applyChorus]
    split_ifs <;> exact hrm
  · simp only [processSample, applyDelay, applyFlanger, applyChorus]
    split_ifs <;> exact hfm
  · simp only [processSample, applyDelay, applyFlanger, applyChorus]
    split_ifs <;> exact hcm
  · have : ∀ v ∈ d.flangerBuffer.set d.flangerIndex a, (0 : ℚ) ≤ v :=
      set_nonneg _ hfl _ _ ha0
    simp only [processSample, applyDelay, applyFlanger, applyChorus, hdist, hread, hdm]
    split_ifs <;> exact this
  · have : ∀ v ∈ d.chorusBuffer.set d.chorusIndex (a + fd * (2 / 10)), (0 : ℚ) ≤ v :=
      set_nonneg _ hch _ _ (by positivity)
    simp only [processSample, applyDelay, applyFlanger, applyChorus, hdist, hread, hdm, hfm]
    split_ifs <;> exact this
  · rw [hout]
    unfold applyReverb
    nlinarith

theorem chainInv_init : ChainInv 0 initData :=
  ⟨delayInv_init _ _ rfl rfl, ⟨rfl, rfl, rfl, rfl, rfl⟩,
    fun _ hv => le_of_eq (List.eq_of_mem_replicate hv).symm,
    fun _ hv => le_of_eq (List.eq_of_mem_replicate hv).symm⟩

theorem audioCallback_ones (sn : ℚ → ℚ) (n k : Nat) (d : AudioData) (h : ChainInv k d) :
    ChainInv (k + n) (audioCallback sn d (List.replicate n 1)).2 := by
  induction n generalizing k d with
  | zero => exact h
  | succ n ih =>
    have e : k + (n + 1) = (k + 1) + n := by omega
    rw [e, List.replicate_succ]
    simp only [audioCallback]
    exact ih (k + 1) _ (processSample_one sn k d h).1

/-- C6 (the code breaks the claim): under the default parameters, from the initial
state, on a stream of `MAX_DELAY + 1` samples `1.0`, the extended chain writes an output
sample of at least `1.17`; nothing clamps it. This holds for every `sin` function. -/
theorem audioCallback_output_exceeds_one (sn : ℚ → ℚ) :
    ∃ y ∈ (audioCallback sn initData (List.replicate (MAX_DELAY + 1) 1)).1,
      (117 / 100 : ℚ) ≤ y := by
  have hinv := audioCallback_ones sn MAX_DELAY 0 initData chainInv_init
  obtain ⟨_, hy⟩ := processSample_one sn _ _ hinv
  refine ⟨(processSample sn (audioCallback sn initData (List.replicate MAX_DELAY 1)).2 1).1,
    ?_, ?_⟩
  · rw [List.replicate_succ', audioCallback_append]
    apply List.mem_append_right
    rw [audioCallback_single]
    exact List.mem_cons_self _ _
  · have hd : delayedInput (fun _ => (1 : ℚ)) (0 + MAX_DELAY) = 1 := by
      simp [delayedInput]
    rw [hd] at hy
    norm_num at hy
    exact hy

theorem applyCall_cursors (sn : ℚ → ℚ) (d : AudioData) (c : Call) (h : CursorsInRange d) :
    CursorsInRange (applyCall sn d c) := by
  obtain ⟨⟨l1, l2, l3⟩, i1, i2, i3⟩ := h
  have hN : 0 < MAX_DELAY := by decide
  cases c with
  | delay x =>
    exact ⟨⟨by simp [applyCall, applyDelay, l1], l2, l3⟩, Nat.mod_lt _ hN, i2, i3⟩
  | flanger x =>
    exact ⟨⟨l1, by simp [applyCall, applyFlanger, l2], l3⟩, i1, Nat.mod_lt _ hN, i3⟩
  | chorus x =>
    exact ⟨⟨l1, l2, by simp [applyCall, applyChorus, l3]⟩, i1, i2, Nat.mod_lt _ hN⟩

theorem applyCalls_cursors (sn : ℚ → ℚ) (calls : List Call) (d : AudioData)
    (h : CursorsInRange d) : CursorsInRange (applyCalls sn d calls) := by
  induction calls generalizing d with
  | nil => exact h
  | cons c calls ih => exact ih _ (applyCall_cursors sn d c h)

theorem readIndex_spec (cursor : Nat) (lfoOffset : Int) (hc : cursor < MAX_DELAY)
    (h0 : 0 ≤ lfoOffset) (h1 : lfoOffset ≤ 441) :
    readIndex cursor lfoOffset < MAX_DELAY ∧
    ((readIndex cursor lfoOffset : Int) + lfoOffset) % (MAX_DELAY : Int) = (cursor : Int) := by
  unfold readIndex
  unfold MAX_DELAY at hc ⊢
  have e1 : ((cursor : Int) + ((44100 : Nat) : Int) - lfoOffset) % (2 ^ 64 : Int) =
      (cursor : Int) + 44100 - lfoOffset := by
    apply Int.emod_eq_of_lt
    · push_cast
      omega
    · push_cast
      omega
  rw [e1]
  push_cast
  have hnn : 0 ≤ ((cursor : Int) + 44100 - lfoOffset) % 44100 := Int.emod_nonneg _ (by norm_num)
  have hlt : ((cursor : Int) + 44100 - lfoOffset) % 44100 < 44100 := Int.emod_lt_of_pos _ (by norm_num)
  rw [Int.toNat_of_nonneg hnn]
  constructor
  · omega
  · omega

theorem lfoOffsetOf_bounds (sn : ℚ → ℚ) (phase : ℚ) (n : Nat) (h0 : -1 ≤ sn phase)
    (h1 : sn phase ≤ 1) : 0 ≤ lfoOffsetOf sn phase n ∧ lfoOffsetOf sn phase n ≤ (n : Int) := by
  have hn : (0 : ℚ) ≤ (n : ℚ) := Nat.cast_nonneg n
  have hv0 : 0 ≤ (sn phase + 1) * (1 / 2) * (n : ℚ) := by
    apply mul_nonneg _ hn
    linarith
  have hv1 : (sn phase + 1) * (1 / 2) * (n : ℚ) ≤ (n : ℚ) := by
    have : (sn phase + 1) * (1 / 2) ≤ 1 := by linarith
    nlinarith
  simp only [lfoOffsetOf, castInt, hv0, if_true]
  refine ⟨Int.floor_nonneg.mpr hv0, ?_⟩
  have := Int.floor_le ((sn phase + 1) * (1 / 2) * (n : ℚ))
  have h2 : ((⌊(sn phase + 1) * (1 / 2) * (n : ℚ)⌋ : Int) : ℚ) ≤ ((n : Int) : ℚ) := by
    push_cast
    linarith
  exact_mod_cast h2

/-- C7: buffer indexing stays inside the buffers. From cursors 0 on buffers of
`MAX_DELAY` entries, after every sequence of `applyDelay`, `applyFlanger` and
`applyChorus` calls the three buffers still have `MAX_DELAY` entries and the three
cursors are below `MAX_DELAY`. The depths are 220 and 441, both below `MAX_DELAY`; for
every cursor below `MAX_DELAY` and every offset `0 ≤ lfoOffset ≤ 441` the read index is
below `MAX_DELAY` and trails the cursor by `lfoOffset` modulo `MAX_DELAY`; the offset
the code computes is in `[0, depth]` when `sin` is in `[-1, 1]`. The tuner's
`sampleIndex` stays below `FFT_SIZE` and its window keeps `FFT_SIZE` entries. -/
theorem buffer_indexing_in_range :
    (∀ (sn : ℚ → ℚ) (d : AudioData) (calls : List Call),
      d.delayBuffer.length = MAX_DELAY → d.flangerBuffer.length = MAX_DELAY →
      d.chorusBuffer.length = MAX_DELAY →
      d.delayIndex = 0 → d.flangerIndex = 0 → d.chorusIndex = 0 →
      CursorsInRange (applyCalls sn d calls)) ∧
    (flangerDelaySamples = 220 ∧ chorusDelaySamples = 441 ∧ 441 < MAX_DELAY) ∧
    (∀ (cursor : Nat) (lfoOffset : Int), cursor < MAX_DELAY → 0 ≤ lfoOffset →
      lfoOffset ≤ 441 →
      readIndex cursor lfoOffset < MAX_DELAY ∧
      ((readIndex cursor lfoOffset : Int) + lfoOffset) % (MAX_DELAY : Int) = (cursor : Int)) ∧
    (∀ (sn : ℚ → ℚ) (phase : ℚ) (n : Nat), -1 ≤ sn phase → sn phase ≤ 1 →
      0 ≤ lfoOffsetOf sn phase n ∧ lfoOffsetOf sn phase n ≤ (n : Int)) ∧
    (∀ block : List ℚ,
      (Tuner.accumulate Tuner.initState block).sampleIndex < Tuner.FFT_SIZE ∧
      (Tuner.accumulate Tuner.initState block).audioData.length = Tuner.FFT_SIZE) := by
  refine ⟨?_, ⟨by decide, by decide, by decide⟩, readIndex_spec, lfoOffsetOf_bounds, ?_⟩
  · intro sn d calls l1 l2 l3 i1 i2 i3
    have hN : 0 < MAX_DELAY := by decide
    exact applyCalls_cursors sn calls d
      ⟨⟨l1, l2, l3⟩, by rw [i1]; exact hN, by rw [i2]; exact hN, by rw [i3]; exact hN⟩
  · intro block
    exact Tuner.accumulate_inv block Tuner.initState (by decide) (by simp [Tuner.initState])

/-- C7 at the initial state of `main` with one call of each effect, and at cursor 0 with
offset 220. -/
theorem buffer_indexing_in_range_witness :
    CursorsInRange
        (applyCalls (fun _ => 0) initData [Call.delay 1, Call.flanger 1, Call.chorus 1]) ∧
      (readIndex 0 220 < MAX_DELAY ∧
        ((readIndex 0 220 : Int) + 220) % (MAX_DELAY : Int) = ((0 : Nat) : Int)) ∧
      (0 ≤ lfoOffsetOf (fun _ => 0) 0 220 ∧ lfoOffsetOf (fun _ => 0) 0 220 ≤ ((220 : Nat) : Int)) :=
  ⟨buffer_indexing_in_range.1 (fun _ => 0) initData
      [Call.delay 1, Call.flanger 1, Call.chorus 1]
      (List.length_replicate _ _) (List.length_replicate _ _) (List.length_replicate _ _)
      rfl rfl rfl,
    buffer_indexing_in_range.2.2.1 0 220 (by decide) (by norm_num) (by norm_num),
    buffer_indexing_in_range.2.2.2.1 (fun _ => 0) 0 220 (by norm_num) (by norm_num)⟩

theorem key_values : key 'w' = 119 ∧ key 's' = 115 ∧ key 'a' = 97 ∧ key 'd' = 100 ∧
    key 'q' = 113 ∧ key 'e' = 101 ∧ key 'r' = 114 ∧ key 'f' = 102 ∧ key 't' = 116 ∧
    key 'g' = 103 := by decide

theorem handleKey_cases (d : AudioData) (ch : Int) :
    handleKey d ch =
      if ch = 119 then { d with gain := stdMin (d.gain + 1 / 10) MAX_GAIN }
      else if ch = 115 then { d with gain := stdMax (d.gain - 1 / 10) (1 / 10) }
      else if ch = 97 then { d with delayMix := stdMax (d.delayMix - 1 / 10) 0 }
      else if ch = 100 then { d with delayMix := stdMin (d.delayMix + 1 / 10) 1 }
      else if ch = 113 then { d with reverbMix := stdMax (d.reverbMix - 1 / 10) 0 }
      else if ch = 101 then { d with reverbMix := stdMin (d.reverbMix + 1 / 10) 1 }
      else if ch = 114 then { d with flangerMix := stdMin (d.flangerMix + 1 / 10) 1 }
      else if ch = 102 then { d with flangerMix := stdMax (d.flangerMix - 1 / 10) 0 }
      else if ch = 116 then { d with chorusMix := stdMin (d.chorusMix + 1 / 10) 1 }
      else if ch = 103 then { d with chorusMix := stdMax (d.chorusMix - 1 / 10) 0 }
      else d := by
  obtain ⟨k1, k2, k3, k4, k5, k6, k7, k8, k9, k10⟩ := key_values
  unfold handleKey
  rw [k1, k2, k3, k4, k5, k6, k7, k8, k9, k10]
  by_cases h1 : ch = 119
  · subst h1; simp
  by_cases h2 : ch = 115
  · subst h2; simp
  by_cases h3 : ch = 97
  · subst h3; simp
  by_cases h4 : ch = 100
  · subst h4; simp
  by_cases h5 : ch = 113
  · subst h5; simp
  by_cases h6 : ch = 101
  · subst h6; simp
  by_cases h7 : ch = 114
  · subst h7; simp
  by_cases h8 : ch = 102
  · subst h8; simp
  by_cases h9 : ch = 116
  · subst h9; simp
  by_cases h10 : ch = 103
  · subst h10; simp
  simp [h1, h2, h3, h4, h5, h6, h7, h8, h9, h10]

theorem stepUp_bounds (x lo hi : ℚ) (h0 : lo ≤ x) (h1 : lo ≤ hi) :
    lo ≤ stdMin (x + 1 / 10) hi ∧ stdMin (x + 1 / 10) hi ≤ hi := by
  unfold stdMin
  split_ifs with h
  · exact ⟨h1, le_refl _⟩
  · exact ⟨by linarith, not_lt.mp h⟩

theorem stepDown_bounds (x lo hi : ℚ) (h0 : x ≤ hi) (h1 : lo ≤ hi) :
    lo ≤ stdMax (x - 1 / 10) lo ∧ stdMax (x - 1 / 10) lo ≤ hi := by
  unfold stdMax
  split_ifs with h
  · exact ⟨le_refl _, h1⟩
  · exact ⟨not_lt.mp h, by linarith⟩

theorem handleKey_range (d : AudioData) (ch : Int) (h : ParamsInRange d) :
    ParamsInRange (handleKey d ch) := by
  obtain ⟨⟨g0, g1⟩, ⟨a0, a1⟩, ⟨b0, b1⟩, ⟨c0, c1⟩, ⟨e0, e1⟩⟩ := h
  have hG : (1 / 10 : ℚ) ≤ MAX_GAIN := by norm_num [MAX_GAIN]
  rw [handleKey_cases]
  by_cases h1 : ch = 119
  · rw [if_pos h1]
    exact ⟨stepUp_bounds _ _ _ g0 hG, ⟨a0, a1⟩, ⟨b0, b1⟩, ⟨c0, c1⟩, ⟨e0, e1⟩⟩
  rw [if_neg h1]
  by_cases h2 : ch = 115
  · rw [if_pos h2]
    exact ⟨stepDown_bounds _ _ _ g1 hG, ⟨a0, a1⟩, ⟨b0, b1⟩, ⟨c0, c1⟩, ⟨e0, e1⟩⟩
  rw [if_neg h2]
  by_cases h3 : ch = 97
  · rw [if_pos h3]
    exact ⟨⟨g0, g1⟩, stepDown_bounds _ _ _ a1 zero_le_one, ⟨b0, b1⟩, ⟨c0, c1⟩, ⟨e0, e1⟩⟩
  rw [if_neg h3]
  by_cases h4 : ch = 100
  · rw [if_pos h4]
    exact ⟨⟨g0, g1⟩, stepUp_bounds _ _ _ a0 zero_le_one, ⟨b0, b1⟩, ⟨c0, c1⟩, ⟨e0, e1⟩⟩
  rw [if_neg h4]
  by_cases h5 : ch = 113
  · rw [if_pos h5]
    exact ⟨⟨g0, g1⟩, ⟨a0, a1⟩, stepDown_bounds _ _ _ b1 zero_le_one, ⟨c0, c1⟩, ⟨e0, e1⟩⟩
  rw [if_neg h5]
  by_cases h6 : ch = 101
  · rw [if_pos h6]
    exact ⟨⟨g0, g1⟩, ⟨a0, a1⟩, stepUp_bounds _ _ _ b0 zero_le_one, ⟨c0, c1⟩, ⟨e0, e1⟩⟩
  rw [if_neg h6]
  by_cases h7 : ch = 114
  · rw [if_pos h7]
    exact ⟨⟨g0, g1⟩, ⟨a0, a1⟩, ⟨b0, b1⟩, stepUp_bounds _ _ _ c0 zero_le_one, ⟨e0, e1⟩⟩
  rw [if_neg h7]
  by_cases h8 : ch = 102
  · rw [if_pos h8]
    exact ⟨⟨g0, g1⟩, ⟨a0, a1⟩, ⟨b0, b1⟩, stepDown_bounds _ _ _ c1 zero_le_one, ⟨e0, e1⟩⟩
  rw [if_neg h8]
  by_cases h9 : ch = 116
  · rw [if_pos h9]
    exact ⟨⟨g0, g1⟩, ⟨a0, a1⟩, ⟨b0, b1⟩, ⟨c0, c1⟩, stepUp_bounds _ _ _ e0 zero_le_one⟩
  rw [if_neg h9]
  by_cases h10 : ch = 103
  · rw [if_pos h10]
    exact ⟨⟨g0, g1⟩, ⟨a0, a1⟩, ⟨b0, b1⟩, ⟨c0, c1⟩, stepDown_bounds _ _ _ e1 zero_le_one⟩
  rw [if_neg h10]
  exact ⟨⟨g0, g1⟩, ⟨a0, a1⟩, ⟨b0, b1⟩, ⟨c0, c1⟩, ⟨e0, e1⟩⟩

theorem keyLoop_range (keys : List Int) (d : AudioData) (h : ParamsInRange d) :
    ParamsInRange (keyLoop d keys) := by
  induction keys generalizing d with
  | nil => exact h
  | cons ch rest ih =>
    simp only [keyLoop]
    split_ifs
    · exact h
    · exact ih _ (handleKey_range d ch h)

/-- C9: parameter changes are clamped where they are made. From the defaults, after every
sequence of key presses handled by the control loop, `gain` is in `[0.1, MAX_GAIN]` and
the four mix values are in `[0, 1]`; one key press keeps these ranges. A key press
changes no field other than the parameter its key is bound to, and a key that is bound
to nothing changes nothing. -/
theorem key_presses_clamped :
    (∀ keys : List Int, ParamsInRange (keyLoop initData keys)) ∧
    (∀ (d : AudioData) (ch : Int), ParamsInRange d → ParamsInRange (handleKey d ch)) ∧
    (∀ (d : AudioData) (ch : Int),
      (ch = key 'w' ∨ ch = key 's' →
        handleKey d ch = { d with gain := (handleKey d ch).gain }) ∧
      (ch = key 'a' ∨ ch = key 'd' →
        handleKey d ch = { d with delayMix := (handleKey d ch).delayMix }) ∧
      (ch = key 'q' ∨ ch = key 'e' →
        handleKey d ch = { d with reverbMix := (handleKey d ch).reverbMix }) ∧
      (ch = key 'r' ∨ ch = key 'f' →
        handleKey d ch = { d with flangerMix := (handleKey d ch).flangerMix }) ∧
      (ch = key 't' ∨ ch = key 'g' →
        handleKey d ch = { d with chorusMix := (handleKey d ch).chorusMix }) ∧
      (ch ≠ key 'w' → ch ≠ key 's' → ch ≠ key 'a' → ch ≠ key 'd' → ch ≠ key 'q' →
        ch ≠ key 'e' → ch ≠ key 'r' → ch ≠ key 'f' → ch ≠ key 't' → ch ≠ key 'g' →
        handleKey d ch = d)) := by
  have hinit : ParamsInRange initData := by
    simp only [ParamsInRange, initData, MAX_GAIN]
    norm_num
  refine ⟨fun keys => keyLoop_range keys initData hinit, handleKey_range, ?_⟩
  intro d ch
  obtain ⟨k1, k2, k3, k4, k5, k6, k7, k8, k9, k10⟩ := key_values
  rw [k1, k2, k3, k4, k5, k6, k7, k8, k9, k10, handleKey_cases]
  refine ⟨?_, ?_, ?_, ?_, ?_, ?_⟩
  · rintro (h | h) <;> subst h <;> simp
  · rintro (h | h) <;> subst h <;> simp
  · rintro (h | h) <;> subst h <;> simp
  · rintro (h | h) <;> subst h <;> simp
  · rintro (h | h) <;> subst h <;> simp
  · intro h1 h2 h3 h4 h5 h6 h7 h8 h9 h10
    simp [h1, h2, h3, h4, h5, h6, h7, h8, h9, h10]

/-- C9 at the key sequence `w, w, a` from the defaults, and at the key `w`. -/
theorem key_presses_clamped_witness :
    ParamsInRange (handleKey initData (key 'w')) ∧
    handleKey initData (key 'w') =
      { initData with gain := (handleKey initData (key 'w')).gain } :=
  ⟨key_presses_clamped.2.1 initData (key 'w')
      (key_presses_clamped.1 []),
    (key_presses_clamped.2.2 initData (key 'w')).1 (Or.inl rfl)⟩

end Ampg

namespace Tuner

theorem range9 : List.range 9 = [0, 1, 2, 3, 4, 5, 6, 7, 8] := by decide

theorem noteStep_le (freq : ℚ) (o : Nat) (st : Closest) (p : String × ℚ) :
    (noteStep freq o st p).minDiff ≤ st.minDiff ∧
    (noteStep freq o st p).minDiff ≤ |freq - p.2 * 2 ^ o| := by
  simp only [noteStep]
  split_ifs with h
  · exact ⟨le_of_lt h, le_refl _⟩
  · exact ⟨le_refl _, not_lt.mp h⟩

theorem noteStep_found (freq : ℚ) (o : Nat) (ho : o ≤ 8) (st : Closest) (p : String × ℚ)
    (hp : p ∈ notes) :
    noteStep freq o st p = st ∨ Found freq (noteStep freq o st p) := by
  simp only [noteStep]
  split_ifs with h
  · exact Or.inr ⟨p.2, hp, ho, rfl⟩
  · exact Or.inl rfl

theorem noteFold_spec (freq : ℚ) (o : Nat) (ho : o ≤ 8) (l : List (String × ℚ))
    (hl : ∀ p ∈ l, p ∈ notes) (st : Closest) :
    (l.foldl (noteStep freq o) st).minDiff ≤ st.minDiff ∧
    (∀ p ∈ l, (l.foldl (noteStep freq o) st).minDiff ≤ |freq - p.2 * 2 ^ o|) ∧
    (l.foldl (noteStep freq o) st = st ∨ Found freq (l.foldl (noteStep freq o) st)) := by
  induction l generalizing st with
  | nil => simp
  | cons a l ih =>
    have hl2 : ∀ p ∈ l, p ∈ notes := fun p hp => hl p (List.mem_cons_of_mem _ hp)
    obtain ⟨h1, h2, h3⟩ := ih hl2 (noteStep freq o st a)
    obtain ⟨s1, s2⟩ := noteStep_le freq o st a
    simp only [List.foldl_cons]
    refine ⟨le_trans h1 s1, ?_, ?_⟩
    · intro p hp
      rcases List.mem_cons.mp hp with rfl | hp
      · exact le_trans h1 s2
      · exact h2 p hp
    · rcases h3 with h3 | h3
      · rw [h3]
        exact noteStep_found freq o ho st a (hl a (List.mem_cons_self _ _))
      · exact Or.inr h3

theorem octaveFold_spec (freq : ℚ) (os : List Nat) (hos : ∀ o ∈ os, o ≤ 8) (st : Closest) :
    (os.foldl (noteLoop freq) st).minDiff ≤ st.minDiff ∧
    (∀ o ∈ os, ∀ p ∈ notes, (os.foldl (noteLoop freq) st).minDiff ≤ |freq - p.2 * 2 ^ o|) ∧
    (os.foldl (noteLoop freq) st = st ∨ Found freq (os.foldl (noteLoop freq) st)) := by
  induction os generalizing st with
  | nil => simp
  | cons a os ih =>
    have hos2 : ∀ o ∈ os, o ≤ 8 := fun o ho => hos o (List.mem_cons_of_mem _ ho)
    obtain ⟨h1, h2, h3⟩ := ih hos2 (noteLoop freq st a)
    obtain ⟨s1, s2, s3⟩ :=
      noteFold_spec freq a (hos a (List.mem_cons_self _ _)) notes (fun _ h => h) st
    simp only [List.foldl_cons]
    refine ⟨le_trans h1 s1, ?_, ?_⟩
    · intro o ho p hp
      rcases List.mem_cons.mp ho with rfl | ho
      · exact le_trans h1 (s2 p hp)
      · exact h2 o ho p hp
    · rcases h3 with h3 | h3
      · rw [h3]
        exact s3
      · exact Or.inr h3

theorem closestSearch_found (freq : ℚ) (h0 : 0 ≤ freq) (h1 : freq ≤ (SAMPLE_RATE : ℚ) / 2) :
    Found freq (closestSearch freq) ∧
    ∀ p ∈ notes, ∀ o, o ≤ 8 → (closestSearch freq).minDiff ≤ |freq - p.2 * 2 ^ o| := by
  obtain ⟨_, h2, h3⟩ := octaveFold_spec freq (List.range 9)
    (fun o ho => by have := List.mem_range.mp ho; omega)
    { closestNote := "?", minDiff := 10 ^ 9, octave := 0 }
  have hall : ∀ p ∈ notes, ∀ o, o ≤ 8 → (closestSearch freq).minDiff ≤ |freq - p.2 * 2 ^ o| :=
    fun p hp o ho => h2 o (List.mem_range.mpr (by omega)) p hp
  refine ⟨?_, hall⟩
  rcases h3 with h3 | h3
  · exfalso
    have hA := hall ("A", 27.50) (by simp [notes]) 0 (by omega)
    have hm : (closestSearch freq).minDiff = 10 ^ 9 := by
      unfold closestSearch
      rw [h3]
    rw [hm] at hA
    have hSR : (SAMPLE_RATE : ℚ) = 44100 := by norm_num [SAMPLE_RATE]
    rw [hSR] at h1
    have : |freq - (27.50 : ℚ) * 2 ^ 0| < 10 ^ 9 := by
      rw [abs_lt]
      constructor <;> norm_num <;> linarith
    exact absurd hA (not_le.mpr this)
  · exact h3

theorem found_ne_placeholder (freq : ℚ) (st : Closest) (h : Found freq st) :
    st.closestNote ≠ "?" := by
  obtain ⟨b, hb, _, _⟩ := h
  intro hq
  rw [hq] at hb
  simp [notes] at hb

theorem getClosestNoteWithOctave_eq (freq : ℚ) :
    getClosestNoteWithOctave freq =
      ((noteLoop freq (noteLoop freq (noteLoop freq (noteLoop freq (noteLoop freq
        (noteLoop freq (noteLoop freq (noteLoop freq (noteLoop freq
          { closestNote := "?", minDiff := 10 ^ 9, octave := 0 } 0) 1) 2) 3) 4) 5) 6) 7) 8).closestNote,
       (noteLoop freq (noteLoop freq (noteLoop freq (noteLoop freq (noteLoop freq
        (noteLoop freq (noteLoop freq (noteLoop freq (noteLoop freq
          { closestNote := "?", minDiff := 10 ^ 9, octave := 0 } 0) 1) 2) 3) 4) 5) 6) 7) 8).octave) := by
  simp only [getClosestNoteWithOctave, closestSearch, range9, List.foldl]

theorem closest_440_octave0 :
    noteLoop 440 { closestNote := "?", minDiff := 10 ^ 9, octave := 0 } 0 =
      { closestNote := "B", minDiff := (40913 / 100), octave := 0 } := by
  simp only [noteLoop, notes, List.foldl, noteStep]
  norm_num [abs_of_nonneg, abs_of_neg, abs_of_nonpos]

theorem closest_440_octave1 :
    noteLoop 440 { closestNote := "B", minDiff := (40913 / 100), octave := 0 } 1 =
      { closestNote := "B", minDiff := (18913 / 50), octave := 1 } := by
  simp only [noteLoop, notes, List.foldl, noteStep]
  norm_num [abs_of_nonneg, abs_of_neg, abs_of_nonpos]

theorem closest_440_octave2 :
    noteLoop 440 { closestNote := "B", minDiff := (18913 / 50), octave := 1 } 2 =
      { closestNote := "B", minDiff := (7913 / 25), octave := 2 } := by
  simp only [noteLoop, notes, List.foldl, noteStep]
  norm_num [abs_of_nonneg, abs_of_neg, abs_of_nonpos]

theorem closest_440_octave3 :
    noteLoop 440 { closestNote := "B", minDiff := (7913 / 25), octave := 2 } 3 =
      { closestNote := "B", minDiff := (4826 / 25), octave := 3 } := by
  simp only [noteLoop, notes, List.foldl, noteStep]
  norm_num [abs_of_nonneg, abs_of_neg, abs_of_nonpos]

theorem closest_440_octave4 :
    noteLoop 440 { closestNote := "B", minDiff := (4826 / 25), octave := 3 } 4 =
      { closestNote := "A", minDiff := 0, octave := 4 } := by
  simp only [noteLoop, notes, List.foldl, noteStep]
  norm_num [abs_of_nonneg, abs_of_neg, abs_of_nonpos]

theorem closest_440_octave5 :
    noteLoop 440 { closestNote := "A", minDiff := 0, octave := 4 } 5 =
      { closestNote := "A", minDiff := 0, octave := 4 } := by
  simp only [noteLoop, notes, List.foldl, noteStep]
  norm_num [abs_of_nonneg, abs_of_neg, abs_of_nonpos]

theorem closest_440_octave6 :
    noteLoop 440 { closestNote := "A", minDiff := 0, octave := 4 } 6 =
      { closestNote := "A", minDiff := 0, octave := 4 } := by
  simp only [noteLoop, notes, List.foldl, noteStep]
  norm_num [abs_of_nonneg, abs_of_neg, abs_of_nonpos]

theorem closest_440_octave7 :
    noteLoop 440 { closestNote := "A", minDiff := 0, octave := 4 } 7 =
      { closestNote := "A", minDiff := 0, octave := 4 } := by
  simp only [noteLoop, notes, List.foldl, noteStep]
  norm_num [abs_of_nonneg, abs_of_neg, abs_of_nonpos]

theorem closest_440_octave8 :
    noteLoop 440 { closestNote := "A", minDiff := 0, octave := 4 } 8 =
      { closestNote := "A", minDiff := 0, octave := 4 } := by
  simp only [noteLoop, notes, List.foldl, noteStep]
  norm_num [abs_of_nonneg, abs_of_neg, abs_of_nonpos]

theorem closest_440 : getClosestNoteWithOctave 440 = ("A", 4) := by
  rw [getClosestNoteWithOctave_eq, closest_440_octave0, closest_440_octave1, closest_440_octave2, closest_440_octave3, closest_440_octave4, closest_440_octave5, closest_440_octave6, closest_440_octave7, closest_440_octave8]

theorem closest_16_35_octave0 :
    noteLoop 16.35 { closestNote := "?", minDiff := 10 ^ 9, octave := 0 } 0 =
      { closestNote := "C", minDiff := 0, octave := 0 } := by
  simp only [noteLoop, notes, List.foldl, noteStep]
  norm_num [abs_of_nonneg, abs_of_neg, abs_of_nonpos]

theorem closest_16_35_octave1 :
    noteLoop 16.35 { closestNote := "C", minDiff := 0, octave := 0 } 1 =
      { closestNote := "C", minDiff := 0, octave := 0 } := by
  simp only [noteLoop, notes, List.foldl, noteStep]
  norm_num [abs_of_nonneg, abs_of_neg, abs_of_nonpos]

theorem closest_16_35_octave2 :
    noteLoop 16.35 { closestNote := "C", minDiff := 0, octave := 0 } 2 =
      { closestNote := "C", minDiff := 0, octave := 0 } := by
  simp only [noteLoop, notes, List.foldl, noteStep]
  norm_num [abs_of_nonneg, abs_of_neg, abs_of_nonpos]

theorem closest_16_35_octave3 :
    noteLoop 16.35 { closestNote := "C", minDiff := 0, octave := 0 } 3 =
      { closestNote := "C", minDiff := 0, octave := 0 } := by
  simp only [noteLoop, notes, List.foldl, noteStep]
  norm_num [abs_of_nonneg, abs_of_neg, abs_of_nonpos]

theorem closest_16_35_octave4 :
    noteLoop 16.35 { closestNote := "C", minDiff := 0, octave := 0 } 4 =
      { closestNote := "C", minDiff := 0, octave := 0 } := by
  simp only [noteLoop, notes, List.foldl, noteStep]
  norm_num [abs_of_nonneg, abs_of_neg, abs_of_nonpos]

theorem closest_16_35_octave5 :
    noteLoop 16.35 { closestNote := "C", minDiff := 0, octave := 0 } 5 =
      { closestNote := "C", minDiff := 0, octave := 0 } := by
  simp only [noteLoop, notes, List.foldl, noteStep]
  norm_num [abs_of_nonneg, abs_of_neg, abs_of_nonpos]

theorem closest_16_35_octave6 :
    noteLoop 16.35 { closestNote := "C", minDiff := 0, octave := 0 } 6 =
      { closestNote := "C", minDiff := 0, octave := 0 } := by
  simp only [noteLoop, notes, List.foldl, noteStep]
  norm_num [abs_of_nonneg, abs_of_neg, abs_of_nonpos]

theorem closest_16_35_octave7 :
    noteLoop 16.35 { closestNote := "C", minDiff := 0, octave := 0 } 7 =
      { closestNote := "C", minDiff := 0, octave := 0 } := by
  simp only [noteLoop, notes, List.foldl, noteStep]
  norm_num [abs_of_nonneg, abs_of_neg, abs_of_nonpos]

theorem closest_16_35_octave8 :
    noteLoop 16.35 { closestNote := "C", minDiff := 0, octave := 0 } 8 =
      { closestNote := "C", minDiff := 0, octave := 0 } := by
  simp only [noteLoop, notes, List.foldl, noteStep]
  norm_num [abs_of_nonneg, abs_of_neg, abs_of_nonpos]

theorem closest_16_35 : getClosestNoteWithOctave 16.35 = ("C", 0) := by
  rw [getClosestNoteWithOctave_eq, closest_16_35_octave0, closest_16_35_octave1, closest_16_35_octave2, closest_16_35_octave3, closest_16_35_octave4, closest_16_35_octave5, closest_16_35_octave6, closest_16_35_octave7, closest_16_35_octave8]

theorem closest_zero_octave0 :
    noteLoop 0 { closestNote := "?", minDiff := 10 ^ 9, octave := 0 } 0 =
      { closestNote := "C", minDiff := (327 / 20), octave := 0 } := by
  simp only [noteLoop, notes, List.foldl, noteStep]
  norm_num [abs_of_nonneg, abs_of_neg, abs_of_nonpos]

theorem closest_zero_octave1 :
    noteLoop 0 { closestNote := "C", minDiff := (327 / 20), octave := 0 } 1 =
      { closestNote := "C", minDiff := (327 / 20), octave := 0 } := by
  simp only [noteLoop, notes, List.foldl, noteStep]
  norm_num [abs_of_nonneg, abs_of_neg, abs_of_nonpos]

theorem closest_zero_octave2 :
    noteLoop 0 { closestNote := "C", minDiff := (327 / 20), octave := 0 } 2 =
      { closestNote := "C", minDiff := (327 / 20), octave := 0 } := by
  simp only [noteLoop, notes, List.foldl, noteStep]
  norm_num [abs_of_nonneg, abs_of_neg, abs_of_nonpos]

theorem closest_zero_octave3 :
    noteLoop 0 { closestNote := "C", minDiff := (327 / 20), octave := 0 } 3 =
      { closestNote := "C", minDiff := (327 / 20), octave := 0 } := by
  simp only [noteLoop, notes, List.foldl, noteStep]
  norm_num [abs_of_nonneg, abs_of_neg, abs_of_nonpos]

theorem closest_zero_octave4 :
    noteLoop 0 { closestNote := "C", minDiff := (327 / 20), octave := 0 } 4 =
      { closestNote := "C", minDiff := (327 / 20), octave := 0 } := by
  simp only [noteLoop, notes, List.foldl, noteStep]
  norm_num [abs_of_nonneg, abs_of_neg, abs_of_nonpos]

theorem closest_zero_octave5 :
    noteLoop 0 { closestNote := "C", minDiff := (327 / 20), octave := 0 } 5 =
      { closestNote := "C", minDiff := (327 / 20), octave := 0 } := by
  simp only [noteLoop, notes, List.foldl, noteStep]
  norm_num [abs_of_nonneg, abs_of_neg, abs_of_nonpos]

theorem closest_zero_octave6 :
    noteLoop 0 { closestNote := "C", minDiff := (327 / 20), octave := 0 } 6 =
      { closestNote := "C", minDiff := (327 / 20), octave := 0 } := by
  simp only [noteLoop, notes, List.foldl, noteStep]
  norm_num [abs_of_nonneg, abs_of_neg, abs_of_nonpos]

theorem closest_zero_octave7 :
    noteLoop 0 { closestNote := "C", minDiff := (327 / 20), octave := 0 } 7 =
      { closestNote := "C", minDiff := (327 / 20), octave := 0 } := by
  simp only [noteLoop, notes, List.foldl, noteStep]
  norm_num [abs_of_nonneg, abs_of_neg, abs_of_nonpos]

theorem closest_zero_octave8 :
    noteLoop 0 { closestNote := "C", minDiff := (327 / 20), octave := 0 } 8 =
      { closestNote := "C", minDiff := (327 / 20), octave := 0 } := by
  simp only [noteLoop, notes, List.foldl, noteStep]
  norm_num [abs_of_nonneg, abs_of_neg, abs_of_nonpos]

theorem closest_zero : getClosestNoteWithOctave 0 = ("C", 0) := by
  rw [getClosestNoteWithOctave_eq, closest_zero_octave0, closest_zero_octave1, closest_zero_octave2, closest_zero_octave3, closest_zero_octave4, closest_zero_octave5, closest_zero_octave6, closest_zero_octave7, closest_zero_octave8]


/-- C3: for every frequency `0 ≤ f ≤ SAMPLE_RATE / 2`, `getClosestNoteWithOctave f`
returns a note name of the 12-entry table (never the placeholder `"?"`) and an octave
`o ≤ 8` whose candidate `base * 2 ^ o` is at least as close to `f` as each of the 108
candidates; `440` maps to `("A", 4)` and `16.35` to `("C", 0)`. -/
theorem getClosestNoteWithOctave_nearest :
    (∀ f : ℚ, 0 ≤ f → f ≤ (SAMPLE_RATE : ℚ) / 2 →
      ∃ b, ((getClosestNoteWithOctave f).1, b) ∈ notes ∧
        (getClosestNoteWithOctave f).1 ≠ "?" ∧
        (getClosestNoteWithOctave f).2 ≤ 8 ∧
        ∀ p ∈ notes, ∀ o, o ≤ 8 →
          |f - b * 2 ^ (getClosestNoteWithOctave f).2| ≤ |f - p.2 * 2 ^ o|) ∧
    getClosestNoteWithOctave 440 = ("A", 4) ∧
    getClosestNoteWithOctave 16.35 = ("C", 0) := by
  refine ⟨?_, closest_440, closest_16_35⟩
  intro f h0 h1
  obtain ⟨hf, hall⟩ := closestSearch_found f h0 h1
  have hne := found_ne_placeholder f _ hf
  obtain ⟨b, hb, ho, hd⟩ := hf
  refine ⟨b, hb, hne, ho, ?_⟩
  intro p hp o hop
  have := hall p hp o hop
  rw [hd] at this
  exact this

/-- C3 at `f = 440`: the hypotheses hold and the search returns a table note. -/
theorem getClosestNoteWithOctave_nearest_witness :
    ∃ b, ((getClosestNoteWithOctave 440).1, b) ∈ notes ∧
      (getClosestNoteWithOctave 440).1 ≠ "?" ∧
      (getClosestNoteWithOctave 440).2 ≤ 8 ∧
      ∀ p ∈ notes, ∀ o, o ≤ 8 →
        |(440 : ℚ) - b * 2 ^ (getClosestNoteWithOctave 440).2| ≤ |(440 : ℚ) - p.2 * 2 ^ o| :=
  getClosestNoteWithOctave_nearest.1 440 (by norm_num) (by norm_num [SAMPLE_RATE])

theorem peakLoop_inv {α : Type} [LinearOrderedField α] (magnitude : Nat → α)
    (n i peakIndex : Nat) (peakMagnitude : α)
    (hi : 1 ≤ i) (h : PeakInv magnitude i peakIndex peakMagnitude) :
    ∃ pm, PeakInv magnitude (i + n) (peakLoop magnitude n i peakIndex peakMagnitude) pm := by
  induction n generalizing i peakIndex peakMagnitude with
  | zero => exact ⟨peakMagnitude, h⟩
  | succ n ih =>
    obtain ⟨hmax, hcase⟩ := h
    have hpos : 0 ≤ peakMagnitude := by
      rcases hcase with ⟨_, h0⟩ | ⟨_, _, _, h0, _⟩
      · exact le_of_eq h0.symm
      · exact le_of_lt h0
    have e : i + (n + 1) = (i + 1) + n := by omega
    rw [e]
    simp only [peakLoop]
    split_ifs with hgt
    · apply ih (i + 1) i (magnitude i) (by omega)
      refine ⟨?_, Or.inr ⟨hi, Nat.lt_succ_self i, rfl, lt_of_le_of_lt hpos hgt, ?_⟩⟩
      · intro k h1 h2
        rcases Nat.lt_succ_iff_lt_or_eq.mp h2 with h2 | rfl
        · exact le_of_lt (lt_of_le_of_lt (hmax k h1 h2) hgt)
        · exact le_refl _
      · intro k h1 h2
        exact lt_of_le_of_lt (hmax k h1 h2) hgt
    · apply ih (i + 1) peakIndex peakMagnitude (by omega)
      refine ⟨?_, ?_⟩
      · intro k h1 h2
        rcases Nat.lt_succ_iff_lt_or_eq.mp h2 with h2 | rfl
        · exact hmax k h1 h2
        · exact not_lt.mp hgt
      · rcases hcase with h0 | ⟨a, b, c, d, e⟩
        · exact Or.inl h0
        · exact Or.inr ⟨a, Nat.lt_succ_of_lt b, c, d, e⟩

theorem peakSearch_inv {α : Type} [LinearOrderedField α] (magnitude : Nat → α) :
    ∃ pm, PeakInv magnitude (FFT_SIZE / 2) (peakSearch magnitude) pm := by
  have h0 : PeakInv magnitude 1 0 0 :=
    ⟨fun i h1 h2 => absurd h2 (by omega), Or.inl ⟨rfl, rfl⟩⟩
  have := peakLoop_inv magnitude (FFT_SIZE / 2 - 1) 1 0 0 (le_refl 1) h0
  have e : 1 + (FFT_SIZE / 2 - 1) = FFT_SIZE / 2 := by decide
  rw [e] at this
  exact this

theorem peakLoop_congr {α : Type} [LinearOrderedField α] (m1 m2 : Nat → α)
    (n i peakIndex : Nat) (peakMagnitude : α)
    (h : ∀ k, i ≤ k → k < i + n → m1 k = m2 k) :
    peakLoop m1 n i peakIndex peakMagnitude = peakLoop m2 n i peakIndex peakMagnitude := by
  induction n generalizing i peakIndex peakMagnitude with
  | zero => rfl
  | succ n ih =>
    have hi : m1 i = m2 i := h i (le_refl i) (by omega)
    simp only [peakLoop, hi]
    rw [ih (i + 1) i (m2 i) (fun k h1 h2 => h k (by omega) (by omega)),
      ih (i + 1) peakIndex peakMagnitude (fun k h1 h2 => h k (by omega) (by omega))]

/-- C4: the peak search looks at bins `1 .. FFT_SIZE / 2 - 1` only (its result is below
`FFT_SIZE / 2` and does not depend on any other bin, bin 0 included). When some scanned
magnitude is positive it returns the lowest index holding the maximum of the scanned
bins. When all scanned magnitudes are zero it returns 0, the reported frequency is 0 and
the detection is `("C", 0)`. -/
theorem peakSearch_first_maximum (magnitude : Nat → ℚ) :
    peakSearch magnitude < FFT_SIZE / 2 ∧
    (∀ other : Nat → ℚ, (∀ i, 1 ≤ i → i < FFT_SIZE / 2 → other i = magnitude i) →
      peakSearch other = peakSearch magnitude) ∧
    ((∃ i, 1 ≤ i ∧ i < FFT_SIZE / 2 ∧ 0 < magnitude i) →
      1 ≤ peakSearch magnitude ∧
      (∀ i, 1 ≤ i → i < FFT_SIZE / 2 → magnitude i ≤ magnitude (peakSearch magnitude)) ∧
      (∀ i, 1 ≤ i → i < peakSearch magnitude →
        magnitude i < magnitude (peakSearch magnitude))) ∧
    ((∀ i, 1 ≤ i → i < FFT_SIZE / 2 → magnitude i = 0) →
      peakSearch magnitude = 0 ∧ peakFrequencyOf (peakSearch magnitude) = 0 ∧
      (detect magnitude).peakFrequency = 0 ∧
      getClosestNoteWithOctave (peakFrequencyOf (peakSearch magnitude)) = ("C", 0) ∧
      (detect magnitude).detectedNote = "C" ∧ (detect magnitude).detectedOctave = 0) := by
  obtain ⟨pm, hmax, hcase⟩ := peakSearch_inv magnitude
  refine ⟨?_, ?_, ?_, ?_⟩
  · rcases hcase with ⟨h0, _⟩ | ⟨_, h1, _⟩
    · rw [h0]
      decide
    · exact h1
  · intro other hother
    unfold peakSearch
    apply peakLoop_congr
    intro k h1 h2
    have e : 1 + (FFT_SIZE / 2 - 1) = FFT_SIZE / 2 := by decide
    exact hother k h1 (by omega)
  · rintro ⟨i, h1, h2, h3⟩
    rcases hcase with ⟨_, h0⟩ | ⟨a, _, c, _, e⟩
    · have := hmax i h1 h2
      rw [h0] at this
      exact absurd h3 (not_lt.mpr this)
    · refine ⟨a, ?_, ?_⟩
      · intro k k1 k2
        have := hmax k k1 k2
        rwa [c] at this
      · intro k k1 k2
        have := e k k1 k2
        rwa [c] at this
  · intro hz
    have hp : peakSearch magnitude = 0 := by
      rcases hcase with ⟨h0, _⟩ | ⟨a, b, c, d, _⟩
      · exact h0
      · rw [c, hz _ a b] at d
        exact absurd d (lt_irrefl _)
    have hf : peakFrequencyOf (peakSearch magnitude) = 0 := by
      rw [hp]
      simp [peakFrequencyOf]
    have hd : getClosestNoteWithOctave (peakFrequencyOf (peakSearch magnitude)) = ("C", 0) := by
      rw [hf]
      exact closest_zero
    refine ⟨hp, hf, hf, hd, ?_, ?_⟩
    · simp only [detect, hd]
    · simp only [detect, hd]

/-- C4 at a spectrum whose only non-zero bin is bin 3, and at the silent spectrum. -/
theorem peakSearch_first_maximum_witness :
    (1 ≤ peakSearch (fun i => if i = 3 then (1 : ℚ) else 0) ∧
      (∀ i, 1 ≤ i → i < FFT_SIZE / 2 → (fun i => if i = 3 then (1 : ℚ) else 0) i ≤
        (fun i => if i = 3 then (1 : ℚ) else 0)
          (peakSearch (fun i => if i = 3 then (1 : ℚ) else 0))) ∧
      (∀ i, 1 ≤ i → i < peakSearch (fun i => if i = 3 then (1 : ℚ) else 0) →
        (fun i => if i = 3 then (1 : ℚ) else 0) i <
        (fun i => if i = 3 then (1 : ℚ) else 0)
          (peakSearch (fun i => if i = 3 then (1 : ℚ) else 0)))) ∧
    peakSearch (fun _ => (0 : ℚ)) = 0 :=
  ⟨(peakSearch_first_maximum (fun i => if i = 3 then (1 : ℚ) else 0)).2.2.1
      ⟨3, by decide, by decide, by norm_num⟩,
   ((peakSearch_first_maximum (fun _ => (0 : ℚ))).2.2.2 (fun _ _ _ => rfl)).1⟩

end Tuner

namespace Amp

theorem noiseGate_level_bounds (threshold release g x : ℚ) (h0 : 0 < release)
    (h1 : release < 1) (hg0 : 0 ≤ g) (hg1 : g ≤ 1) :
    0 ≤ (noiseGate g x threshold release).2 ∧ (noiseGate g x threshold release).2 ≤ 1 := by
  simp only [noiseGate]
  split_ifs with h
  · exact ⟨zero_le_one, le_refl _⟩
  · exact ⟨mul_nonneg hg0 (le_of_lt h0), by nlinarith⟩

theorem gateRun_bounds (threshold release : ℚ) (h0 : 0 < release) (h1 : release < 1)
    (xs : List ℚ) (g : ℚ) (hg0 : 0 ≤ g) (hg1 : g ≤ 1) :
    0 ≤ gateRun threshold release g xs ∧ gateRun threshold release g xs ≤ 1 := by
  induction xs generalizing g with
  | nil => exact ⟨hg0, hg1⟩
  | cons x xs ih =>
    obtain ⟨a, b⟩ := noiseGate_level_bounds threshold release g x h0 h1 hg0 hg1
    exact ih _ a b

theorem gateRun_append (threshold release : ℚ) (xs ys : List ℚ) (g : ℚ) :
    gateRun threshold release g (xs ++ ys) =
      gateRun threshold release (gateRun threshold release g xs) ys := by
  induction xs generalizing g with
  | nil => rfl
  | cons x xs ih => exact ih _

theorem processSample_clamped (p : Params) (st : State) (x : ℚ) :
    -1 ≤ (processSample p st x).1 ∧ (processSample p st x).1 ≤ 1 := by
  simp only [processSample, noiseGate]
  split_ifs <;> constructor <;> linarith

theorem processBlock_clamped (p : Params) (block : List ℚ) (st : State) :
    ∀ y ∈ (processBlock p st block).1, -1 ≤ y ∧ y ≤ 1 := by
  induction block generalizing st with
  | nil => simp [processBlock]
  | cons x rest ih =>
    intro y hy
    simp only [processBlock, List.mem_cons] at hy
    rcases hy with rfl | hy
    · exact processSample_clamped p st x
    · exact ih _ y hy

/-- The simple chain clamps at its final output stage: every sample that the
`audioCallback` of `amp.cpp` writes lies in `[-1, 1]`. -/
theorem audioCallback_clamped (p : Params) (st : State) (input : Option (List ℚ)) :
    ∀ y ∈ (audioCallback p st input).1, -1 ≤ y ∧ y ≤ 1 := by
  cases input with
  | none => simp [audioCallback]
  | some block => exact processBlock_clamped p block st

end Amp

namespace Mixer

/-- Mixing a sample that halves exactly with itself gives the sample back. -/
theorem mixSelf_of_halvesExactly {x : ℚ} (h : HalvesExactly x) : mixSelf x = x := by
  obtain ⟨⟨hf, _⟩, hz | hbig⟩ := h
  · rw [hz]
    simp only [mixSelf, zero_mul, f32_zero, add_zero]
  · unfold mixSelf
    rw [f32_half hf hbig]
    have e : x * (1 / 2) + x * (1 / 2) = x := by ring
    rw [e, hf]

theorem mixStep_inv (b : List ℚ) (d : AudioData) (h : MixInv b d) :
    MixInv b (mixStep d).2 ∧ (mixStep d).2.index = min b.length (d.index + 1) ∧
    (d.index = b.length → mixStep d = (0, d)) := by
  obtain ⟨h1, h2, h3, h4⟩ := h
  unfold mixStep
  rw [h1, h2]
  by_cases hlt : d.index < b.length
  · have hc : d.index < b.length ∧ d.index < b.length := ⟨hlt, hlt⟩
    simp only [hc, and_self, if_true]
    refine ⟨⟨rfl, rfl, hlt, ?_⟩, ?_, ?_⟩
    · show d.outputBuffer ++ [mixSelf (b.getD d.index 0)] = (b.take (d.index + 1)).map mixSelf
      rw [h4, List.take_succ, List.map_append, List.getD_eq_getElem?_getD,
        List.getElem?_eq_getElem hlt]
      rfl
    · show d.index + 1 = min b.length (d.index + 1)
      omega
    · intro e
      omega
  · have hc : ¬ (d.index < b.length ∧ d.index < b.length) := fun c => hlt c.1
    simp only [hc, if_false]
    refine ⟨⟨h1, h2, h3, h4⟩, ?_, fun _ => trivial⟩
    show d.index = min b.length (d.index + 1)
    omega

theorem mixLoop_inv (b : List ℚ) (n : Nat) (d : AudioData) (h : MixInv b d) :
    MixInv b (mixLoop n d).2 ∧ (mixLoop n d).2.index = min b.length (d.index + n) ∧
    (d.index = b.length → mixLoop n d = (List.replicate n 0, d)) := by
  induction n generalizing d with
  | zero =>
    refine ⟨h, ?_, fun _ => rfl⟩
    have := h.2.2.1
    show d.index = min b.length (d.index + 0)
    omega
  | succ n ih =>
    obtain ⟨s1, s2, s3⟩ := mixStep_inv b d h
    obtain ⟨r1, r2, r3⟩ := ih (mixStep d).2 s1
    have hle := h.2.2.1
    refine ⟨?_, ?_, ?_⟩
    · simpa [mixLoop] using r1
    · have : (mixLoop (n + 1) d).2.index = (mixLoop n (mixStep d).2).2.index := by
        simp [mixLoop]
      rw [this, r2, s2]
      omega
    · intro e
      have e1 := s3 e
      have e2 : (mixStep d).2 = d := by rw [e1]
      have e3 := r3 (by rw [e2]; exact e)
      rw [e2] at e3
      simp [mixLoop, e1, e3, List.replicate_succ]

theorem runCallbacks_inv (b : List ℚ) (fs : List Nat) (d : AudioData) (h : MixInv b d) :
    MixInv b (runCallbacks d fs) ∧
    (runCallbacks d fs).index = min b.length (d.index + requested fs) := by
  induction fs generalizing d with
  | nil =>
    refine ⟨h, ?_⟩
    have := h.2.2.1
    show d.index = min b.length (d.index + requested [])
    simp only [requested, List.map_nil, List.sum_nil]
    omega
  | cons f fs ih =>
    obtain ⟨s1, s2, _⟩ := mixLoop_inv b (f * 2) d h
    obtain ⟨r1, r2⟩ := ih (audioCallback d f).2 s1
    refine ⟨r1, ?_⟩
    show (runCallbacks (audioCallback d f).2 fs).index = _
    rw [r2]
    have e : (audioCallback d f).2.index = min b.length (d.index + f * 2) := s2
    rw [e]
    simp only [requested, List.map_cons, List.sum_cons]
    omega

/-- C8, as amended. Mixing a buffer `b` with itself in binary32: after any sequence of
mixer callbacks the captured `outputBuffer` has length `index ≤ |b|` (the smaller of
`|b|` and the number of samples requested) and its `k`-th sample is the rounded sum of
the two rounded halves of `b[k]`; that is `b[k]` itself when `b[k]` is a finite `float`
that is zero or of magnitude at least `2 ^ -125`. Once at least `|b|` samples were
requested, every sample a later callback writes to the device is 0, and `outputBuffer`
equals `b` when every sample of `b` is such a `float`. -/
theorem mix_with_itself_binary32 (b : List ℚ) (fs : List Nat) :
    (runCallbacks { buffer1 := b, buffer2 := b } fs).outputBuffer.length =
      (runCallbacks { buffer1 := b, buffer2 := b } fs).index ∧
    (runCallbacks { buffer1 := b, buffer2 := b } fs).index ≤ b.length ∧
    (runCallbacks { buffer1 := b, buffer2 := b } fs).index = min b.length (requested fs) ∧
    (∀ k, k < (runCallbacks { buffer1 := b, buffer2 := b } fs).index →
      (runCallbacks { buffer1 := b, buffer2 := b } fs).outputBuffer.getD k 0 =
        f32 (f32 (b.getD k 0 * (1 / 2)) + f32 (b.getD k 0 * (1 / 2)))) ∧
    (∀ k, k < (runCallbacks { buffer1 := b, buffer2 := b } fs).index →
      HalvesExactly (b.getD k 0) →
      (runCallbacks { buffer1 := b, buffer2 := b } fs).outputBuffer.getD k 0 = b.getD k 0) ∧
    (b.length ≤ requested fs →
      ((∀ x ∈ b, HalvesExactly x) →
        (runCallbacks { buffer1 := b, buffer2 := b } fs).outputBuffer = b) ∧
      ∀ f, (audioCallback (runCallbacks { buffer1 := b, buffer2 := b } fs) f).1 =
        List.replicate (f * 2) 0) := by
  have h0 : MixInv b { buffer1 := b, buffer2 := b } := ⟨rfl, rfl, Nat.zero_le _, rfl⟩
  obtain ⟨⟨h1, h2, h3, h4⟩, hidx⟩ := runCallbacks_inv b fs _ h0
  have hidx2 : (runCallbacks { buffer1 := b, buffer2 := b } fs).index =
      min b.length (requested fs) := by
    rw [hidx]
    simp
  have hk : ∀ k, k < (runCallbacks { buffer1 := b, buffer2 := b } fs).index →
      (runCallbacks { buffer1 := b, buffer2 := b } fs).outputBuffer.getD k 0 =
        mixSelf (b.getD k 0) := by
    intro k hk
    have hkb : k < b.length := lt_of_lt_of_le hk h3
    rw [h4, List.getD_eq_getElem?_getD, List.getD_eq_getElem?_getD, List.getElem?_map,
      List.getElem?_take_of_lt hk, List.getElem?_eq_getElem hkb]
    rfl
  refine ⟨?_, h3, hidx2, hk, ?_, ?_⟩
  · rw [h4, List.length_map, List.length_take]
    omega
  · intro k hlt hx
    rw [hk k hlt, mixSelf_of_halvesExactly hx]
  · intro hreq
    have hfull : (runCallbacks { buffer1 := b, buffer2 := b } fs).index = b.length := by
      rw [hidx2]
      omega
    refine ⟨?_, ?_⟩
    · intro hb
      rw [h4, hfull, List.take_length]
      have e : b.map mixSelf = b.map id :=
        List.map_congr_left (fun x hx => mixSelf_of_halvesExactly (hb x hx))
      rw [e, List.map_id]
    · intro f
      have := (mixLoop_inv b (f * 2) _ ⟨h1, h2, h3, h4⟩).2.2 hfull
      unfold audioCallback
      rw [this]

/-- C8 fails in binary32 for the buffer holding the smallest positive `float`: its half
is a tie that rounds to 0, so the captured output is `[0]`, not the buffer. -/
theorem mix_with_itself_loses_min_subnormal :
    (runCallbacks { buffer1 := [2 ^ (-149 : ℤ)], buffer2 := [2 ^ (-149 : ℤ)] } [1]).outputBuffer =
      [0] ∧
    (runCallbacks { buffer1 := [2 ^ (-149 : ℤ)], buffer2 := [2 ^ (-149 : ℤ)] } [1]).outputBuffer ≠
      [2 ^ (-149 : ℤ)] := by
  have h : (runCallbacks { buffer1 := [2 ^ (-149 : ℤ)], buffer2 := [2 ^ (-149 : ℤ)] }
      [1]).outputBuffer = [0] := by
    have h0 : MixInv [2 ^ (-149 : ℤ)] { buffer1 := [2 ^ (-149 : ℤ)], buffer2 := [2 ^ (-149 : ℤ)] } :=
      ⟨rfl, rfl, Nat.zero_le _, rfl⟩
    obtain ⟨⟨_, _, _, h4⟩, hidx⟩ := runCallbacks_inv _ [1] _ h0
    have hone : (runCallbacks { buffer1 := [2 ^ (-149 : ℤ)], buffer2 := [2 ^ (-149 : ℤ)] }
        [1]).index = 1 := by
      rw [hidx]
      rfl
    rw [h4, hone]
    show [mixSelf (2 ^ (-149 : ℤ))] = [0]
    unfold mixSelf
    rw [f32_half_min_subnormal, add_zero, f32_zero]
  refine ⟨h, ?_⟩
  rw [h]
  intro e
  have e2 : (0 : ℚ) = 2 ^ (-149 : ℤ) := List.head_eq_of_cons_eq e
  have := two_zpow_pos (-149)
  linarith

/-- C8 as amended at the buffer `[1, 0]` after one callback of 1 frame (2 samples
requested). -/
theorem mix_with_itself_binary32_witness :
    (runCallbacks { buffer1 := [1, 0], buffer2 := [1, 0] } [1]).outputBuffer = [1, 0] :=
  ((mix_with_itself_binary32 [1, 0] [1]).2.2.2.2.2 (by decide)).1 (by
    intro x hx
    simp only [List.mem_cons, List.mem_singleton, List.not_mem_nil, or_false] at hx
    rcases hx with rfl | rfl
    · exact ⟨⟨f32_one, by norm_num [FLT_MAX]⟩, Or.inr (by norm_num)⟩
    · exact ⟨⟨f32_zero, by norm_num [FLT_MAX]⟩, Or.inl rfl⟩)

end Mixer

/-! ## Theorems: the tuner on a pure sinusoid -/

namespace Tuner

theorem peakSearch_max {α : Type} [LinearOrderedField α] (magnitude : Nat → α) (k : Nat)
    (hk1 : 1 ≤ k) (hk2 : k < FFT_SIZE / 2) (hpos : 0 < magnitude k) :
    1 ≤ peakSearch magnitude ∧ peakSearch magnitude < FFT_SIZE / 2 ∧
    ∀ i, 1 ≤ i → i < FFT_SIZE / 2 → magnitude i ≤ magnitude (peakSearch magnitude) := by
  obtain ⟨pm, hmax, hcase⟩ := peakSearch_inv magnitude
  rcases hcase with ⟨_, h0⟩ | ⟨a, b, c, _, _⟩
  · have := hmax k hk1 hk2
    rw [h0] at this
    exact absurd hpos (not_lt.mpr this)
  · refine ⟨a, b, ?_⟩
    intro i h1 h2
    have := hmax i h1 h2
    rwa [c] at this

theorem accumulate_getD {α : Type} (block : List α) (st : TunerState α) (d : α)
    (hidx : st.sampleIndex < FFT_SIZE)
    (hfit : st.sampleIndex + block.length ≤ FFT_SIZE)
    (hlen : st.audioData.length = FFT_SIZE) :
    (accumulate st block).sampleIndex = (st.sampleIndex + block.length) % FFT_SIZE ∧
    ∀ i, (accumulate st block).audioData.getD i d =
      if st.sampleIndex ≤ i ∧ i < st.sampleIndex + block.length
      then block.getD (i - st.sampleIndex) d else st.audioData.getD i d := by
  induction block generalizing st with
  | nil =>
    refine ⟨?_, ?_⟩
    · simp only [accumulate, List.length_nil, Nat.add_zero]
      exact (Nat.mod_eq_of_lt hidx).symm
    · intro i
      have : ¬ (st.sampleIndex ≤ i ∧ i < st.sampleIndex + ([] : List α).length) := by
        simp only [List.length_nil, Nat.add_zero]
        omega
      simp only [accumulate, this, if_false]
  | cons x rest ih =>
    simp only [List.length_cons] at hfit ⊢
    have hset : ∀ i, (st.audioData.set st.sampleIndex x).getD i d =
        if i = st.sampleIndex then x else st.audioData.getD i d := by
      intro i
      rw [List.getD_eq_getElem?_getD, List.getD_eq_getElem?_getD, List.getElem?_set]
      by_cases hi : st.sampleIndex = i
      · subst hi
        simp [hlen, hidx]
      · have hi2 : ¬ (i = st.sampleIndex) := fun e => hi e.symm
        simp [hi, hi2]
    by_cases hlast : st.sampleIndex + 1 = FFT_SIZE
    · have hr : rest = [] := List.length_eq_zero.mp (by omega)
      subst hr
      refine ⟨by simp [accumulate], ?_⟩
      intro i
      simp only [accumulate, hset, List.length_nil]
      by_cases hi : i = st.sampleIndex
      · rw [hi]
        simp
      · have : ¬ (st.sampleIndex ≤ i ∧ i < st.sampleIndex + (0 + 1)) := by omega
        simp only [hi, this, if_false]
    · have hlt : st.sampleIndex + 1 < FFT_SIZE := by omega
      have hmod : (st.sampleIndex + 1) % FFT_SIZE = st.sampleIndex + 1 := Nat.mod_eq_of_lt hlt
      obtain ⟨h1, h2⟩ := ih
        { audioData := st.audioData.set st.sampleIndex x
          sampleIndex := (st.sampleIndex + 1) % FFT_SIZE }
        (by simp only [hmod]; exact hlt) (by simp only [hmod]; omega) (by simp [hlen])
      simp only [hmod] at h1 h2
      refine ⟨?_, ?_⟩
      · simp only [accumulate, hmod]
        rw [h1]
        congr 1
        omega
      · intro i
        simp only [accumulate, hmod]
        rw [h2 i, hset]
        by_cases hi : i = st.sampleIndex
        · rw [hi]
          have c1 : ¬ (st.sampleIndex + 1 ≤ st.sampleIndex ∧
              st.sampleIndex < st.sampleIndex + 1 + rest.length) := by omega
          have c2 : st.sampleIndex ≤ st.sampleIndex ∧
              st.sampleIndex < st.sampleIndex + (rest.length + 1) := by omega
          simp [c1, c2]
        · by_cases hin : st.sampleIndex + 1 ≤ i ∧ i < st.sampleIndex + 1 + rest.length
          · have c2 : st.sampleIndex ≤ i ∧ i < st.sampleIndex + (rest.length + 1) := by omega
            have e : i - st.sampleIndex = (i - (st.sampleIndex + 1)) + 1 := by omega
            simp only [hin, c2, and_self, if_true, e, List.getD_cons_succ]
          · have c2 : ¬ (st.sampleIndex ≤ i ∧ i < st.sampleIndex + (rest.length + 1)) := by omega
            simp only [hin, c2, hi, if_false]

section Sinusoid

open Real

theorem norm_exp_sub_one (x : ℝ) : ‖Complex.exp (x * Complex.I) - 1‖ = 2 * |Real.sin (x / 2)| := by
  have h : Complex.exp (x * Complex.I) - 1 =
      Complex.exp ((x / 2 : ℝ) * Complex.I) * (2 * Complex.I * (Real.sin (x / 2) : ℂ)) := by
    have e1 : Complex.exp (x * Complex.I) =
        Complex.exp ((x / 2 : ℝ) * Complex.I) * Complex.exp ((x / 2 : ℝ) * Complex.I) := by
      rw [← Complex.exp_add]
      congr 1
      push_cast
      ring
    rw [e1, Complex.ofReal_sin, Complex.exp_mul_I, Complex.ofReal_div]
    have hI : Complex.I * Complex.I = -1 := Complex.I_mul_I
    have hcs := Complex.sin_sq_add_cos_sq ((x : ℂ) / (2 : ℝ))
    push_cast at hcs ⊢
    linear_combination hcs - (Complex.sin ((x : ℂ) / 2) ^ 2 ) * hI
  rw [h, norm_mul, Complex.norm_exp_ofReal_mul_I, one_mul, norm_mul, norm_mul]
  simp only [Complex.norm_eq_abs, Complex.abs_ofReal, Complex.abs_two, Complex.abs_I, mul_one]

theorem expSum_mul (N : Nat) (a : ℝ) :
    expSum N a * (Complex.exp (a * Complex.I) - 1) = Complex.exp ((N * a : ℝ) * Complex.I) - 1 := by
  have h : ∀ n : Nat, Complex.exp ((a * n : ℝ) * Complex.I) = Complex.exp (a * Complex.I) ^ n := by
    intro n
    rw [← Complex.exp_nat_mul]
    congr 1
    push_cast
    ring
  unfold expSum
  simp only [h]
  rw [geom_sum_mul, ← Complex.exp_nat_mul]
  congr 2
  push_cast
  ring

theorem expSum_norm (N : Nat) (a : ℝ) :
    ‖expSum N a‖ * |Real.sin (a / 2)| = |Real.sin (N * a / 2)| := by
  have h := congrArg norm (expSum_mul N a)
  rw [norm_mul, norm_exp_sub_one, norm_exp_sub_one] at h
  linarith

theorem expSum_zero (N : Nat) : expSum N 0 = N := by
  simp [expSum]

theorem expSum_near (N : Nat) (hN : 0 < N) (x : ℝ) (hx : |x| ≤ 1 / 2) :
    2 * N / π ≤ ‖expSum N (2 * π * x / N)‖ := by
  have hNr : (0 : ℝ) < N := Nat.cast_pos.mpr hN
  have hpi := Real.pi_pos
  by_cases h0 : x = 0
  · subst h0
    simp only [mul_zero, zero_div, expSum_zero, Complex.norm_natCast]
    rw [div_le_iff₀ hpi]
    nlinarith [Real.pi_gt_three]
  · have hxpos : 0 < |x| := abs_pos.mpr h0
    have h := expSum_norm N (2 * π * x / N)
    have e1 : 2 * π * x / N / 2 = π * x / N := by ring
    have e2 : (N : ℝ) * (2 * π * x / N) / 2 = π * x := by field_simp; ring
    rw [e1, e2] at h
    have hs1 : |Real.sin (π * x / N)| ≤ π * |x| / N := by
      calc |Real.sin (π * x / N)| ≤ |π * x / N| := Real.abs_sin_le_abs
        _ = π * |x| / N := by
          rw [abs_div, abs_mul, abs_of_pos hpi, abs_of_pos hNr]
    have hs2 : 2 / π * |π * x| ≤ |Real.sin (π * x)| := by
      apply Real.mul_abs_le_abs_sin
      rw [abs_mul, abs_of_pos hpi]
      nlinarith
    rw [abs_mul, abs_of_pos hpi] at hs2
    have hs3 : 2 * |x| ≤ |Real.sin (π * x)| := by
      have : 2 / π * (π * |x|) = 2 * |x| := by field_simp; ring
      rw [this] at hs2
      exact hs2
    have hE : 0 ≤ ‖expSum N (2 * π * x / N)‖ := norm_nonneg _
    have h4 : 2 * |x| ≤ ‖expSum N (2 * π * x / N)‖ * (π * |x| / N) := by
      calc 2 * |x| ≤ |Real.sin (π * x)| := hs3
        _ = ‖expSum N (2 * π * x / N)‖ * |Real.sin (π * x / N)| := h.symm
        _ ≤ ‖expSum N (2 * π * x / N)‖ * (π * |x| / N) := mul_le_mul_of_nonneg_left hs1 hE
    rw [div_le_iff₀ hpi]
    have h5 : ‖expSum N (2 * π * x / N)‖ * (π * |x| / N) =
        (‖expSum N (2 * π * x / N)‖ * π) * |x| / N := by ring
    rw [h5, le_div_iff₀ hNr] at h4
    have h6 : (2 * N) * |x| ≤ (‖expSum N (2 * π * x / N)‖ * π) * |x| := by linarith
    exact le_of_mul_le_mul_right h6 hxpos

theorem sin_ge_of_between (N : ℝ) (hN : 0 < N) (c x : ℝ) (hc : 0 ≤ c) (h1 : c ≤ |x|)
    (h2 : |x| ≤ N - c) : Real.sin (π * c / N) ≤ |Real.sin (π * x / N)| := by
  have hpi := Real.pi_pos
  have key : ∀ y : ℝ, c ≤ y → y ≤ N - c → Real.sin (π * c / N) ≤ Real.sin (π * y / N) := by
    intro y hy1 hy2
    have hcN : π * c / N ≤ π / 2 := by
      rw [div_le_div_iff₀ hN (by norm_num : (0:ℝ) < 2)]
      nlinarith
    have hc0 : 0 ≤ π * c / N := by positivity
    by_cases hy : π * y / N ≤ π / 2
    · apply Real.sin_le_sin_of_le_of_le_pi_div_two _ hy
      · apply div_le_div_of_nonneg_right _ (le_of_lt hN)
        nlinarith
      · linarith
    · rw [← Real.sin_pi_sub (π * y / N)]
      apply Real.sin_le_sin_of_le_of_le_pi_div_two
      · linarith
      · push_neg at hy
        linarith
      · have : π - π * y / N = π * (N - y) / N := by field_simp; ring
        rw [this]
        apply div_le_div_of_nonneg_right _ (le_of_lt hN)
        nlinarith
  rcases abs_cases x with ⟨hx, _⟩ | ⟨hx, _⟩
  · rw [hx] at h1 h2
    exact le_trans (key x h1 h2) (le_abs_self _)
  · rw [hx] at h1 h2
    have := key (-x) h1 h2
    have e : π * (-x) / N = -(π * x / N) := by ring
    rw [e, Real.sin_neg] at this
    exact le_trans this (neg_le_abs _)

theorem expSum_far (N : Nat) (hN : 0 < N) (c x : ℝ) (hc : 0 < c) (hcN : c < N) (h1 : c ≤ |x|)
    (h2 : |x| ≤ N - c) :
    ‖expSum N (2 * π * x / N)‖ ≤ 1 / Real.sin (π * c / N) := by
  have hNr : (0 : ℝ) < N := Nat.cast_pos.mpr hN
  have hpi := Real.pi_pos
  have h := expSum_norm N (2 * π * x / N)
  have e1 : 2 * π * x / N / 2 = π * x / N := by ring
  have e2 : (N : ℝ) * (2 * π * x / N) / 2 = π * x := by field_simp; ring
  rw [e1, e2] at h
  have hs := sin_ge_of_between N hNr c x (le_of_lt hc) h1 h2
  have hpos : 0 < Real.sin (π * c / N) := by
    apply Real.sin_pos_of_pos_of_lt_pi
    · positivity
    · rw [div_lt_iff₀ hNr]
      nlinarith
  rw [le_div_iff₀ hpos]
  calc ‖expSum N (2 * π * x / N)‖ * Real.sin (π * c / N)
      ≤ ‖expSum N (2 * π * x / N)‖ * |Real.sin (π * x / N)| :=
        mul_le_mul_of_nonneg_left hs (norm_nonneg _)
    _ = |Real.sin (π * x)| := h
    _ ≤ 1 := Real.abs_sin_le_one _


theorem dftMagnitude_eq_norm (w : List ℝ) (k : Nat) : dftMagnitude w k = ‖dft w k‖ := by
  rw [Complex.norm_eq_abs, Complex.abs_apply, Complex.normSq_apply]
  rfl

theorem sinusoid_term (A a φ : ℝ) (k n : Nat) (N : ℝ) :
    ((A * Real.sin (2 * π * a / N * n + φ) : ℝ) : ℂ) *
        Complex.exp ((-(2 * π * (k : ℝ) * (n : ℝ) / N) : ℝ) * Complex.I) =
      (A : ℂ) / (2 * Complex.I) *
        (Complex.exp (φ * Complex.I) *
            Complex.exp (((2 * π * (a - k) / N) * n : ℝ) * Complex.I) -
          Complex.exp (-(φ : ℂ) * Complex.I) *
            Complex.exp (((2 * π * (-(a + k)) / N) * n : ℝ) * Complex.I)) := by
  rw [← Complex.exp_add, ← Complex.exp_add]
  push_cast
  rw [Complex.sin]
  have hI : Complex.I ≠ 0 := Complex.I_ne_zero
  have e1 : (φ : ℂ) * Complex.I + 2 * π * (a - k) / N * n * Complex.I =
      (2 * π * a / N * n + φ) * Complex.I + -(2 * π * k * n / N) * Complex.I := by
    field_simp
    ring
  have e2 : -(φ : ℂ) * Complex.I + 2 * π * (-(a + k)) / N * n * Complex.I =
      -(2 * π * a / N * n + φ) * Complex.I + -(2 * π * k * n / N) * Complex.I := by
    field_simp
    ring
  rw [e1, e2, Complex.exp_add, Complex.exp_add]
  field_simp
  ring_nf
  rw [Complex.I_sq]
  ring


theorem dft_sinusoid (w : List ℝ) (A f φ : ℝ)
    (hw : ∀ n, n < FFT_SIZE → w.getD n 0 = sinusoid A f φ n) (k : Nat) :
    dft w k =
      (A : ℂ) / (2 * Complex.I) *
        (Complex.exp (φ * Complex.I) *
            expSum FFT_SIZE (2 * π * (f * FFT_SIZE / SAMPLE_RATE - k) / FFT_SIZE) -
          Complex.exp (-(φ : ℂ) * Complex.I) *
            expSum FFT_SIZE (2 * π * (-(f * FFT_SIZE / SAMPLE_RATE + k)) / FFT_SIZE)) := by
  unfold dft expSum
  rw [Finset.mul_sum, Finset.mul_sum, ← Finset.sum_sub_distrib, Finset.mul_sum]
  apply Finset.sum_congr rfl
  intro n hn
  rw [hw n (Finset.mem_range.mp hn), sinusoid]
  have hN : (FFT_SIZE : ℝ) ≠ 0 := by norm_num [FFT_SIZE]
  have hS : (SAMPLE_RATE : ℝ) ≠ 0 := by norm_num [SAMPLE_RATE]
  have e : 2 * π * f * (n : ℝ) / (SAMPLE_RATE : ℝ) + φ =
      2 * π * (f * FFT_SIZE / SAMPLE_RATE) / (FFT_SIZE : ℝ) * n + φ := by
    field_simp
    ring
  rw [e]
  exact sinusoid_term A (f * FFT_SIZE / SAMPLE_RATE) φ k n FFT_SIZE

theorem norm_half_amplitude (A : ℝ) : ‖(A : ℂ) / (2 * Complex.I)‖ = |A| / 2 := by
  rw [norm_div, norm_mul]
  simp

theorem norm_phase_mul (φ : ℝ) (z : ℂ) : ‖Complex.exp (φ * Complex.I) * z‖ = ‖z‖ := by
  rw [norm_mul, Complex.norm_exp_ofReal_mul_I, one_mul]

theorem norm_phase_neg_mul (φ : ℝ) (z : ℂ) : ‖Complex.exp (-(φ : ℂ) * Complex.I) * z‖ = ‖z‖ := by
  have : -(φ : ℂ) * Complex.I = ((-φ : ℝ) : ℂ) * Complex.I := by push_cast; ring
  rw [this, norm_mul, Complex.norm_exp_ofReal_mul_I, one_mul]

theorem dft_sinusoid_bounds (w : List ℝ) (A f φ : ℝ)
    (hw : ∀ n, n < FFT_SIZE → w.getD n 0 = sinusoid A f φ n) (k : Nat) :
    dftMagnitude w k ≤ |A| / 2 *
      (‖expSum FFT_SIZE (2 * π * (f * FFT_SIZE / SAMPLE_RATE - k) / FFT_SIZE)‖ +
       ‖expSum FFT_SIZE (2 * π * (-(f * FFT_SIZE / SAMPLE_RATE + k)) / FFT_SIZE)‖) ∧
    |A| / 2 *
      (‖expSum FFT_SIZE (2 * π * (f * FFT_SIZE / SAMPLE_RATE - k) / FFT_SIZE)‖ -
       ‖expSum FFT_SIZE (2 * π * (-(f * FFT_SIZE / SAMPLE_RATE + k)) / FFT_SIZE)‖) ≤
      dftMagnitude w k := by
  rw [dftMagnitude_eq_norm, dft_sinusoid w A f φ hw k, norm_mul, norm_half_amplitude]
  have hA : 0 ≤ |A| / 2 := by positivity
  constructor
  · apply mul_le_mul_of_nonneg_left _ hA
    calc _ ≤ ‖Complex.exp (φ * Complex.I) * _‖ + ‖Complex.exp (-(φ : ℂ) * Complex.I) * _‖ :=
          norm_sub_le _ _
      _ = _ := by rw [norm_phase_mul, norm_phase_neg_mul]
  · apply mul_le_mul_of_nonneg_left _ hA
    calc _ = ‖Complex.exp (φ * Complex.I) * _‖ - ‖Complex.exp (-(φ : ℂ) * Complex.I) * _‖ := by
          rw [norm_phase_mul, norm_phase_neg_mul]
      _ ≤ _ := norm_sub_norm_le _ _

theorem sin_small_lower (c : ℝ) (h1 : 1 ≤ c) (h3 : c ≤ 3) :
    c * (1533 / 1000000) ≤ Real.sin (π * c / ((2048 : ℕ) : ℝ)) := by
  have hp1 := Real.pi_gt_d6
  have hp2 := Real.pi_lt_d6
  set y := π * c / ((2048 : ℕ) : ℝ) with hy
  have hy1 : c * (3141592 / 1000000 / 2048) ≤ y := by
    rw [hy]
    push_cast
    rw [le_div_iff₀ (by norm_num : (0 : ℝ) < 2048)]
    nlinarith
  have hy2 : y ≤ 47 / 10000 := by
    rw [hy]
    push_cast
    rw [div_le_iff₀ (by norm_num : (0 : ℝ) < 2048)]
    nlinarith
  have hy0 : 0 < y := by nlinarith
  have hs := Real.sin_gt_sub_cube hy0 (by linarith)
  have hy3 : y ^ 3 / 4 ≤ y * (1 / 100000) := by
    have : y ^ 2 ≤ (47 / 10000) ^ 2 := by nlinarith
    nlinarith
  nlinarith

theorem kernel_margin :
    1 / Real.sin (π * 1 / ((2048 : ℕ) : ℝ)) + 1 / Real.sin (π * 2 / ((2048 : ℕ) : ℝ)) +
      1 / Real.sin (π * 3 / ((2048 : ℕ) : ℝ)) < 2 * ((2048 : ℕ) : ℝ) / π := by
  have s1 := sin_small_lower 1 (le_refl 1) (by norm_num)
  have s2 := sin_small_lower 2 (by norm_num) (by norm_num)
  have s3 := sin_small_lower 3 (by norm_num) (le_refl 3)
  have b1 : 1 / Real.sin (π * 1 / ((2048 : ℕ) : ℝ)) ≤ 1 / (1 * (1533 / 1000000)) :=
    one_div_le_one_div_of_le (by norm_num) s1
  have b2 : 1 / Real.sin (π * 2 / ((2048 : ℕ) : ℝ)) ≤ 1 / (2 * (1533 / 1000000)) :=
    one_div_le_one_div_of_le (by norm_num) s2
  have b3 : 1 / Real.sin (π * 3 / ((2048 : ℕ) : ℝ)) ≤ 1 / (3 * (1533 / 1000000)) :=
    one_div_le_one_div_of_le (by norm_num) s3
  have hp2 := Real.pi_lt_d6
  have hnear : (1300 : ℝ) < 2 * ((2048 : ℕ) : ℝ) / π := by
    rw [lt_div_iff₀ Real.pi_pos]
    push_cast
    nlinarith
  have hsum : 1 / (1 * (1533 / 1000000 : ℝ)) + 1 / (2 * (1533 / 1000000)) +
      1 / (3 * (1533 / 1000000)) < 1300 := by norm_num
  linarith

theorem image_bound (c x : ℝ) (hc : 0 < c) (hc3 : c ≤ 3) (h1 : c ≤ x) (h2 : x ≤ 2048 - c) :
    ‖expSum FFT_SIZE (2 * π * (-x) / FFT_SIZE)‖ ≤ 1 / Real.sin (π * c / ((2048 : ℕ) : ℝ)) := by
  have hx : |(-x)| = x := by rw [abs_neg, abs_of_nonneg (by linarith)]
  have := expSum_far FFT_SIZE (by decide) c (-x) hc (by norm_num [FFT_SIZE]; linarith)
    (by rw [hx]; exact h1) (by rw [hx]; norm_num [FFT_SIZE]; linarith)
  exact this

theorem far_bin_lt (w : List ℝ) (A f φ : ℝ)
    (hw : ∀ n, n < FFT_SIZE → w.getD n 0 = sinusoid A f φ n) (hA : A ≠ 0)
    (h1 : 1 < f * FFT_SIZE / SAMPLE_RATE) (h2 : f * FFT_SIZE / SAMPLE_RATE < 1023)
    (near far : Nat) (hnear : |f * FFT_SIZE / SAMPLE_RATE - near| ≤ 1 / 2)
    (hk1 : 1 ≤ far) (hk2 : far < FFT_SIZE / 2)
    (hfar : 1 ≤ |f * FFT_SIZE / SAMPLE_RATE - far|) :
    dftMagnitude w far < dftMagnitude w near := by
  set a := f * FFT_SIZE / SAMPLE_RATE with ha
  obtain ⟨hup, _⟩ := dft_sinusoid_bounds w A f φ hw far
  obtain ⟨_, hlow⟩ := dft_sinusoid_bounds w A f φ hw near
  rw [← ha] at hup hlow
  have hApos : 0 < |A| / 2 := by positivity
  -- the bins as reals
  have hfar1 : (1 : ℝ) ≤ (far : ℝ) := by exact_mod_cast hk1
  have hfar2 : (far : ℝ) ≤ 1023 := by
    have : far ≤ 1023 := by
      have e : FFT_SIZE / 2 = 1024 := by decide
      omega
    exact_mod_cast this
  obtain ⟨hn1, hn2⟩ := abs_le.mp hnear
  -- main lobes
  have hmainNear := expSum_near FFT_SIZE (by decide) (a - near) hnear
  have hmainFar : ‖expSum FFT_SIZE (2 * π * (a - far) / FFT_SIZE)‖ ≤
      1 / Real.sin (π * 1 / ((2048 : ℕ) : ℝ)) := by
    have := expSum_far FFT_SIZE (by decide) 1 (a - far) one_pos (by norm_num [FFT_SIZE]) hfar
      (by
        norm_num [FFT_SIZE]
        rw [abs_le]
        constructor <;> linarith)
    exact this
  -- mirror images
  have himg : ‖expSum FFT_SIZE (2 * π * (-(a + far)) / FFT_SIZE)‖ +
      ‖expSum FFT_SIZE (2 * π * (-(a + near)) / FFT_SIZE)‖ ≤
      1 / Real.sin (π * 2 / ((2048 : ℕ) : ℝ)) + 1 / Real.sin (π * 3 / ((2048 : ℕ) : ℝ)) := by
    have hnearpos : (1 : ℝ) ≤ (near : ℝ) := by
      have : (0 : ℝ) < (near : ℝ) := by linarith
      have : 0 < near := by exact_mod_cast this
      exact_mod_cast this
    have hnearle : (near : ℝ) ≤ 1023 := by
      have : (near : ℝ) < 1024 := by linarith
      have : near < 1024 := by exact_mod_cast this
      have : near ≤ 1023 := by omega
      exact_mod_cast this
    by_cases hmid : 3 ≤ a + near ∧ a + near ≤ 2045
    · have i1 := image_bound 2 (a + far) (by norm_num) (by norm_num) (by linarith) (by linarith)
      have i2 := image_bound 3 (a + near) (by norm_num) (by norm_num) hmid.1 (by linarith [hmid.2])
      linarith
    · have i2 := image_bound 2 (a + near) (by norm_num) (by norm_num) (by linarith) (by linarith)
      have hfar3 : 3 ≤ a + far ∧ a + far ≤ 2045 := by
        rcases le_abs'.mp hfar with hlt | hgt
        · -- a - far ≤ -1 : the far bin is above
          have hf2 : (2 : ℝ) < (far : ℝ) := by linarith
          have : 2 < far := by exact_mod_cast hf2
          have hf3 : (3 : ℝ) ≤ (far : ℝ) := by exact_mod_cast this
          by_cases hlo : 3 ≤ a + near
          · -- then a + near > 2045, so near = 1023 and a > 1022: impossible with far ≥ a + 1
            have hhi : 2045 < a + near := by
              by_contra hcon
              exact hmid ⟨hlo, not_lt.mp hcon⟩
            linarith
          · push_neg at hlo
            constructor <;> linarith
        · -- 1 ≤ a - far : the far bin is below
          by_cases hlo : 3 ≤ a + near
          · have hhi : 2045 < a + near := by
              by_contra hcon
              exact hmid ⟨hlo, not_lt.mp hcon⟩
            constructor <;> linarith
          · push_neg at hlo
            linarith
      have i1 := image_bound 3 (a + far) (by norm_num) (by norm_num) hfar3.1
        (by linarith [hfar3.2])
      linarith
  have hmargin := kernel_margin
  have hmainNear2 : 2 * ((2048 : ℕ) : ℝ) / π ≤
      ‖expSum FFT_SIZE (2 * π * (a - near) / FFT_SIZE)‖ := hmainNear
  calc dftMagnitude w far
      ≤ |A| / 2 * (‖expSum FFT_SIZE (2 * π * (a - far) / FFT_SIZE)‖ +
          ‖expSum FFT_SIZE (2 * π * (-(a + far)) / FFT_SIZE)‖) := hup
    _ < |A| / 2 * (‖expSum FFT_SIZE (2 * π * (a - near) / FFT_SIZE)‖ -
          ‖expSum FFT_SIZE (2 * π * (-(a + near)) / FFT_SIZE)‖) := by
        apply mul_lt_mul_of_pos_left _ hApos
        linarith
    _ ≤ dftMagnitude w near := hlow

end Sinusoid

end Tuner

namespace Tuner

section SinusoidDetection

open Real

theorem sinusoidBlock_length (A f φ : ℝ) (start len : Nat) :
    (sinusoidBlock A f φ start len).length = len := by
  simp [sinusoidBlock]

theorem sinusoidBlock_getD (A f φ : ℝ) (start len i : Nat) (hi : i < len) :
    (sinusoidBlock A f φ start len).getD i 0 = sinusoid A f φ (start + i) := by
  unfold sinusoidBlock
  rw [List.getD_eq_getElem?_getD, List.getElem?_map, List.getElem?_range' _ _ hi]
  simp

theorem dftMagnitude_nonneg (w : List ℝ) (k : Nat) : 0 ≤ dftMagnitude w k :=
  Real.sqrt_nonneg _

theorem peakSearch_sinusoid (w : List ℝ) (A f φ : ℝ)
    (hw : ∀ n, n < FFT_SIZE → w.getD n 0 = sinusoid A f φ n) (hA : A ≠ 0)
    (h1 : (SAMPLE_RATE : ℝ) / FFT_SIZE < f)
    (h2 : f < ((FFT_SIZE / 2 - 1 : ℕ) : ℝ) * SAMPLE_RATE / FFT_SIZE) :
    |((peakFrequencyOf (peakSearch (dftMagnitude w)) : ℚ) : ℝ) - f| <
      (SAMPLE_RATE : ℝ) / FFT_SIZE := by
  have hS : (0 : ℝ) < (SAMPLE_RATE : ℝ) := by norm_num [SAMPLE_RATE]
  have hN : (0 : ℝ) < (FFT_SIZE : ℝ) := by norm_num [FFT_SIZE]
  have hbw : (0 : ℝ) < (SAMPLE_RATE : ℝ) / FFT_SIZE := div_pos hS hN
  set a := f * FFT_SIZE / SAMPLE_RATE with ha
  have hfa : f = a * ((SAMPLE_RATE : ℝ) / FFT_SIZE) := by
    rw [ha]
    field_simp
  have ha1 : 1 < a := by
    rw [ha, lt_div_iff₀ hS]
    rw [div_lt_iff₀ hN] at h1
    linarith
  have ha2 : a < 1023 := by
    rw [ha, div_lt_iff₀ hS]
    have e : ((FFT_SIZE / 2 - 1 : ℕ) : ℝ) = 1023 := by norm_num [FFT_SIZE]
    rw [e, lt_div_iff₀ hN] at h2
    linarith
  -- the bin nearest to the sinusoid
  have hr := abs_sub_round a
  obtain ⟨hr1, hr2⟩ := abs_le.mp hr
  have hrpos : 0 < round a := by
    have : (0 : ℝ) < ((round a : ℤ) : ℝ) := by linarith
    exact_mod_cast this
  obtain ⟨near, hnear⟩ := Int.eq_ofNat_of_zero_le (le_of_lt hrpos)
  have hnearR : ((round a : ℤ) : ℝ) = (near : ℝ) := by
    rw [hnear]
    norm_cast
  rw [hnearR] at hr hr1 hr2
  have hn1 : 1 ≤ near := by
    have : (0 : ℝ) < (near : ℝ) := by linarith
    have : 0 < near := by exact_mod_cast this
    exact this
  have hn2 : near < FFT_SIZE / 2 := by
    have : (near : ℝ) < 1024 := by linarith
    have : near < 1024 := by exact_mod_cast this
    exact this
  -- some bin is far from the sinusoid, so the nearest bin has a positive magnitude
  have hposNear : 0 < dftMagnitude w near := by
    by_cases hlow : a < 2
    · have hfar : (1 : ℝ) ≤ |a - ((3 : ℕ) : ℝ)| := by
        rw [le_abs']
        left
        push_cast
        linarith
      exact lt_of_le_of_lt (dftMagnitude_nonneg w 3)
        (far_bin_lt w A f φ hw hA ha1 ha2 near 3 hr (by norm_num) (by decide) hfar)
    · have hfar : (1 : ℝ) ≤ |a - ((1 : ℕ) : ℝ)| := by
        rw [le_abs']
        right
        push_cast
        linarith
      exact lt_of_le_of_lt (dftMagnitude_nonneg w 1)
        (far_bin_lt w A f φ hw hA ha1 ha2 near 1 hr (le_refl 1) (by decide) hfar)
  obtain ⟨p1, p2, pmax⟩ := peakSearch_max (dftMagnitude w) near hn1 hn2 hposNear
  have hclose : |a - (peakSearch (dftMagnitude w) : ℝ)| < 1 := by
    by_contra hcon
    have := far_bin_lt w A f φ hw hA ha1 ha2 near (peakSearch (dftMagnitude w)) hr p1 p2
      (not_lt.mp hcon)
    exact absurd (pmax near hn1 hn2) (not_le.mpr this)
  have hpf : ((peakFrequencyOf (peakSearch (dftMagnitude w)) : ℚ) : ℝ) =
      (peakSearch (dftMagnitude w) : ℝ) * ((SAMPLE_RATE : ℝ) / FFT_SIZE) := by
    unfold peakFrequencyOf
    push_cast
    ring
  rw [hpf, hfa, ← sub_mul, abs_mul, abs_of_pos hbw, abs_sub_comm]
  calc |a - (peakSearch (dftMagnitude w) : ℝ)| * ((SAMPLE_RATE : ℝ) / FFT_SIZE)
      < 1 * ((SAMPLE_RATE : ℝ) / FFT_SIZE) := mul_lt_mul_of_pos_right hclose hbw
    _ = (SAMPLE_RATE : ℝ) / FFT_SIZE := one_mul _

theorem audioCallback_idle {α : Type} [LinearOrderedField α] (spectrum : List α → Nat → α)
    (st : TunerState α) (block : List α) (h : (accumulate st block).sampleIndex ≠ 0) :
    audioCallback spectrum st (some block) = (accumulate st block, none) := by
  simp only [audioCallback, h, if_false]

theorem audioCallback_detect {α : Type} [LinearOrderedField α] (spectrum : List α → Nat → α)
    (st : TunerState α) (block : List α) (h : (accumulate st block).sampleIndex = 0) :
    audioCallback spectrum st (some block) =
      (accumulate st block, some (detect (spectrum (accumulate st block).audioData))) := by
  simp only [audioCallback, h, if_true]

theorem window_after_two_blocks (A f φ : ℝ) (st0 : TunerState ℝ)
    (hidx : st0.sampleIndex = 0) (hlen : st0.audioData.length = FFT_SIZE) :
    (accumulate st0 (sinusoidBlock A f φ 0 FRAMES_PER_BUFFER)).sampleIndex =
      FRAMES_PER_BUFFER ∧
    (accumulate (accumulate st0 (sinusoidBlock A f φ 0 FRAMES_PER_BUFFER))
      (sinusoidBlock A f φ FRAMES_PER_BUFFER FRAMES_PER_BUFFER)).sampleIndex = 0 ∧
    ∀ n, n < FFT_SIZE →
      (accumulate (accumulate st0 (sinusoidBlock A f φ 0 FRAMES_PER_BUFFER))
        (sinusoidBlock A f φ FRAMES_PER_BUFFER FRAMES_PER_BUFFER)).audioData.getD n 0 =
        sinusoid A f φ n := by
  have hF : FRAMES_PER_BUFFER = 1024 := rfl
  have hN : FFT_SIZE = 2048 := rfl
  have hl1 := sinusoidBlock_length A f φ 0 FRAMES_PER_BUFFER
  have hl2 := sinusoidBlock_length A f φ FRAMES_PER_BUFFER FRAMES_PER_BUFFER
  obtain ⟨a1, a2⟩ := accumulate_getD (sinusoidBlock A f φ 0 FRAMES_PER_BUFFER) st0 0
    (by rw [hidx, hN]; omega) (by rw [hidx, hl1, hF, hN]; omega) hlen
  rw [hidx, hl1] at a1 a2
  have hs1 : (accumulate st0 (sinusoidBlock A f φ 0 FRAMES_PER_BUFFER)).sampleIndex =
      FRAMES_PER_BUFFER := by
    rw [a1, hF, hN]
  have hlen1 := (accumulate_inv (sinusoidBlock A f φ 0 FRAMES_PER_BUFFER) st0
    (by rw [hidx, hN]; omega) hlen).2
  obtain ⟨b1, b2⟩ := accumulate_getD (sinusoidBlock A f φ FRAMES_PER_BUFFER FRAMES_PER_BUFFER)
    (accumulate st0 (sinusoidBlock A f φ 0 FRAMES_PER_BUFFER)) 0
    (by rw [hs1, hF, hN]; omega) (by rw [hs1, hl2, hF, hN]) hlen1
  rw [hs1, hl2] at b1 b2
  refine ⟨hs1, ?_, ?_⟩
  · rw [b1, hF, hN]
  · intro n hn
    rw [b2 n]
    by_cases hhi : FRAMES_PER_BUFFER ≤ n ∧ n < FRAMES_PER_BUFFER + FRAMES_PER_BUFFER
    · rw [if_pos hhi, sinusoidBlock_getD A f φ _ _ _ (by omega)]
      have e : FRAMES_PER_BUFFER + (n - FRAMES_PER_BUFFER) = n := by omega
      rw [e]
    · rw [if_neg hhi, a2 n]
      have hlo : 0 ≤ n ∧ n < 0 + FRAMES_PER_BUFFER := by
        rw [hF, hN] at *
        omega
      rw [if_pos hlo, sinusoidBlock_getD A f φ _ _ _ (by omega)]
      have e : 0 + (n - 0) = n := by omega
      rw [e]

/-- C10: a pure sinusoid of non-zero amplitude `A`, any phase `φ` and a frequency `f`
strictly between the bin-1 frequency and the bin-`FFT_SIZE / 2 - 1` frequency is detected
within one bin width. For every window whose `FFT_SIZE` entries are the samples of the
sinusoid, the frequency `peakIndex * SAMPLE_RATE / FFT_SIZE` of the peak of the
magnitudes of its discrete Fourier transform differs from `f` by less than
`SAMPLE_RATE / FFT_SIZE`. From any state with the cursor at 0, feeding the sinusoid in
two blocks of `FRAMES_PER_BUFFER` samples gives no detection after the first block and a
detection with that frequency after the second. -/
theorem sinusoid_detected_within_one_bin (A f φ : ℝ) (hA : A ≠ 0)
    (h1 : (SAMPLE_RATE : ℝ) / FFT_SIZE < f)
    (h2 : f < ((FFT_SIZE / 2 - 1 : ℕ) : ℝ) * SAMPLE_RATE / FFT_SIZE) :
    (∀ w : List ℝ, (∀ n, n < FFT_SIZE → w.getD n 0 = sinusoid A f φ n) →
      |(((detect (dftMagnitude w)).peakFrequency : ℚ) : ℝ) - f| <
        (SAMPLE_RATE : ℝ) / FFT_SIZE) ∧
    (∀ st0 : TunerState ℝ, st0.sampleIndex = 0 → st0.audioData.length = FFT_SIZE →
      (audioCallback dftMagnitude st0
        (some (sinusoidBlock A f φ 0 FRAMES_PER_BUFFER))).2 = none ∧
      ∃ det : Detection,
        (audioCallback dftMagnitude
          (audioCallback dftMagnitude st0
            (some (sinusoidBlock A f φ 0 FRAMES_PER_BUFFER))).1
          (some (sinusoidBlock A f φ FRAMES_PER_BUFFER FRAMES_PER_BUFFER))).2 = some det ∧
        |((det.peakFrequency : ℚ) : ℝ) - f| < (SAMPLE_RATE : ℝ) / FFT_SIZE) := by
  have core : ∀ w : List ℝ, (∀ n, n < FFT_SIZE → w.getD n 0 = sinusoid A f φ n) →
      |(((detect (dftMagnitude w)).peakFrequency : ℚ) : ℝ) - f| <
        (SAMPLE_RATE : ℝ) / FFT_SIZE := by
    intro w hw
    exact peakSearch_sinusoid w A f φ hw hA h1 h2
  refine ⟨core, ?_⟩
  intro st0 hidx hlen
  obtain ⟨hs1, hs2, hwin⟩ := window_after_two_blocks A f φ st0 hidx hlen
  have hne : (accumulate st0 (sinusoidBlock A f φ 0 FRAMES_PER_BUFFER)).sampleIndex ≠ 0 := by
    rw [hs1]
    decide
  rw [audioCallback_idle dftMagnitude st0 _ hne]
  refine ⟨rfl, ?_⟩
  refine ⟨detect (dftMagnitude
    (accumulate (accumulate st0 (sinusoidBlock A f φ 0 FRAMES_PER_BUFFER))
      (sinusoidBlock A f φ FRAMES_PER_BUFFER FRAMES_PER_BUFFER)).audioData), ?_, core _ hwin⟩
  rw [audioCallback_detect dftMagnitude _ _ hs2]

/-- C10 at amplitude 1, frequency 440 Hz and phase 0, from the tuner's initial state. -/
theorem sinusoid_detected_within_one_bin_witness :
    ∃ det : Detection,
      (audioCallback dftMagnitude
        (audioCallback dftMagnitude initState
          (some (sinusoidBlock 1 440 0 0 FRAMES_PER_BUFFER))).1
        (some (sinusoidBlock 1 440 0 FRAMES_PER_BUFFER FRAMES_PER_BUFFER))).2 = some det ∧
      |((det.peakFrequency : ℚ) : ℝ) - 440| < (SAMPLE_RATE : ℝ) / FFT_SIZE :=
  ((sinusoid_detected_within_one_bin 1 440 0 one_ne_zero
      (by norm_num [SAMPLE_RATE, FFT_SIZE]) (by norm_num [SAMPLE_RATE, FFT_SIZE])).2
    initState rfl (List.length_replicate _ _)).2

end SinusoidDetection

end Tuner

/-! ## Theorems: the LFO phase of the flanger and the chorus -/

namespace Ampg

/-- C11 (the code breaks the claim): the flanger and the chorus have their own buffer and
cursor, but one LFO phase. `applyFlanger` changes `flangerBuffer`, `flangerIndex` and
`lfoPhase` only, `applyChorus` changes `chorusBuffer`, `chorusIndex` and the same
`lfoPhase` only. So the `applyChorus` call that follows `applyFlanger` moves the phase
`applyFlanger` left, and over one sample of the chain the phase advances by the sum of
the two increments. -/
theorem lfoPhase_shared (sn : ℚ → ℚ) (data : AudioData) (x y : ℚ) :
    (applyFlanger sn data x).2 =
      { data with
        flangerBuffer := data.flangerBuffer.set data.flangerIndex x
        flangerIndex := (data.flangerIndex + 1) % MAX_DELAY
        lfoPhase := data.lfoPhase + (2 * M_PI * LFO_RATE) / (SAMPLE_RATE : ℚ) } ∧
    (applyChorus sn data y).2 =
      { data with
        chorusBuffer := data.chorusBuffer.set data.chorusIndex y
        chorusIndex := (data.chorusIndex + 1) % MAX_DELAY
        lfoPhase := data.lfoPhase + (2 * M_PI * (LFO_RATE / 2)) / (SAMPLE_RATE : ℚ) } ∧
    (applyChorus sn (applyFlanger sn data x).2 y).2.lfoPhase =
      (applyFlanger sn data x).2.lfoPhase + (2 * M_PI * (LFO_RATE / 2)) / (SAMPLE_RATE : ℚ) ∧
    (applyChorus sn (applyFlanger sn data x).2 y).2.lfoPhase ≠
      (applyFlanger sn data x).2.lfoPhase ∧
    (processSample sn data x).2.lfoPhase =
      data.lfoPhase + (2 * M_PI * LFO_RATE) / (SAMPLE_RATE : ℚ) +
        (2 * M_PI * (LFO_RATE / 2)) / (SAMPLE_RATE : ℚ) := by
  have hinc : (2 * M_PI * (LFO_RATE / 2)) / (SAMPLE_RATE : ℚ) ≠ 0 := by
    norm_num [M_PI, LFO_RATE, SAMPLE_RATE]
  refine ⟨rfl, rfl, rfl, ?_, ?_⟩
  · intro h
    have e : (applyChorus sn (applyFlanger sn data x).2 y).2.lfoPhase =
        (applyFlanger sn data x).2.lfoPhase +
          (2 * M_PI * (LFO_RATE / 2)) / (SAMPLE_RATE : ℚ) := rfl
    rw [e] at h
    exact hinc (by linarith)
  · simp only [processSample, applyDelay, applyFlanger, applyChorus]
    split_ifs <;> rfl

end Ampg

/-! ## Theorems: the filters of the simple chain -/

namespace Amp

theorem processSample_prevSample (p : Params) (st : State) (x : ℚ) :
    (processSample p st x).2.prevSample =
      9 / 10 * (1 / 10 * (noiseGate st.gateLevel x p.noiseThreshold).1 +
        9 / 10 * st.prevSample) := by
  simp only [processSample, lowPassFilter, highPassFilter]
  ring

theorem processSample_written (p : Params) (st : State) (x : ℚ) :
    (processSample p st x).1 =
      max (-1) (min 1 ((processSample p st x).2.prevSample * p.gain * p.volume)) := by
  simp only [processSample]
  split_ifs with h1 h2 h3
  · linarith
  · rw [min_eq_left (le_of_lt h1), max_eq_right (by norm_num)]
  · rw [min_eq_right (not_lt.mp h1), max_eq_left (le_of_lt h3)]
  · rw [min_eq_right (not_lt.mp h1), max_eq_right (not_lt.mp h3)]

theorem processBlock_chainState (p : Params) (x : Nat → ℚ) (n k : Nat) :
    processBlock p (chainState p x k) ((List.range' k n).map x) =
      ((List.range' k n).map (written p x), chainState p x (k + n)) := by
  induction n generalizing k with
  | zero => rfl
  | succ n ih =>
    have e : k + (n + 1) = (k + 1) + n := by omega
    rw [List.range'_succ, List.map_cons, List.map_cons, e]
    simp only [processBlock]
    have hs : (processSample p (chainState p x k) (x k)).2 = chainState p x (k + 1) := rfl
    rw [hs, ih (k + 1)]
    rfl

/-- C12: in exact arithmetic `highPassFilter input previous alpha` is `alpha * input`,
whatever `previous` is. In the simple chain, with `y` the value stored in `prevSample`
and `g` the noise-gated sample, `y` starts at 0 and every sample gives
`y_n = 0.9 * (0.1 * g_n + 0.9 * y_(n-1))`; the value written out is `y_n * gain * volume`
clamped to `[-1, 1]`. The callback on the first `n` samples of a stream writes these
values and leaves these statics. -/
theorem highPass_scales_and_chain_recurrence :
    (∀ input previous alpha : ℚ, highPassFilter input previous alpha = alpha * input) ∧
    (∀ (p : Params) (x : Nat → ℚ),
      (chainState p x 0).prevSample = 0 ∧
      ∀ n,
        (chainState p x (n + 1)).prevSample =
          9 / 10 * (1 / 10 * gated p x n + 9 / 10 * (chainState p x n).prevSample) ∧
        written p x n =
          max (-1) (min 1 ((chainState p x (n + 1)).prevSample * p.gain * p.volume))) ∧
    (∀ (p : Params) (x : Nat → ℚ) (n : Nat),
      audioCallback p {} (some ((List.range n).map x)) =
        ((List.range n).map (written p x), chainState p x n)) := by
  refine ⟨?_, ?_, ?_⟩
  · intro input previous alpha
    unfold highPassFilter
    ring
  · intro p x
    refine ⟨rfl, fun n => ⟨?_, ?_⟩⟩
    · exact processSample_prevSample p (chainState p x n) (x n)
    · exact processSample_written p (chainState p x n) (x n)
  · intro p x n
    have h := processBlock_chainState p x n 0
    rw [Nat.zero_add, ← List.range_eq_range'] at h
    exact h

end Amp

/-! ## Theorems: when the tuner runs a detection step -/

namespace Tuner

theorem audioCallback_state {α : Type} [LinearOrderedField α] (spectrum : List α → Nat → α)
    (st : TunerState α) (block : List α) :
    (audioCallback spectrum st (some block)).1 = accumulate st block := by
  simp only [audioCallback]
  split_ifs <;> rfl

theorem audioCallback_result {α : Type} [LinearOrderedField α] (spectrum : List α → Nat → α)
    (st : TunerState α) (block : List α) :
    (audioCallback spectrum st (some block)).2 =
      if (accumulate st block).sampleIndex = 0
      then some (detect (spectrum (accumulate st block).audioData)) else none := by
  simp only [audioCallback]
  split_ifs <;> rfl

theorem accumulate_sampleIndex {α : Type} (block : List α) (st : TunerState α)
    (h : st.sampleIndex < FFT_SIZE) :
    (accumulate st block).sampleIndex = (st.sampleIndex + block.length) % FFT_SIZE := by
  induction block generalizing st with
  | nil => exact (Nat.mod_eq_of_lt h).symm
  | cons x rest ih =>
    simp only [accumulate, List.length_cons]
    rw [ih _ (Nat.mod_lt _ (by decide))]
    simp only [Nat.mod_add_mod]
    congr 1
    omega

theorem accumulate_append {α : Type} (xs ys : List α) (st : TunerState α) :
    accumulate st (xs ++ ys) = accumulate (accumulate st xs) ys := by
  induction xs generalizing st with
  | nil => rfl
  | cons x xs ih => exact ih _

theorem runCallbacks_eq {α : Type} [LinearOrderedField α] (spectrum : List α → Nat → α)
    (blocks : List (List α)) (st : TunerState α) :
    runCallbacks spectrum st blocks = accumulate st blocks.flatten := by
  induction blocks generalizing st with
  | nil => rfl
  | cons b bs ih =>
    simp only [runCallbacks, List.flatten_cons, accumulate_append, audioCallback_state]
    exact ih _

theorem runCallbacks_append {α : Type} [LinearOrderedField α] (spectrum : List α → Nat → α)
    (bs cs : List (List α)) (st : TunerState α) :
    runCallbacks spectrum st (bs ++ cs) =
      runCallbacks spectrum (runCallbacks spectrum st bs) cs := by
  induction bs generalizing st with
  | nil => rfl
  | cons b bs ih => exact ih _

theorem cursorWrapped_iff {α : Type} (block : List α) (st : TunerState α)
    (h : st.sampleIndex < FFT_SIZE) :
    cursorWrapped st block = true ↔ FFT_SIZE ≤ st.sampleIndex + block.length := by
  induction block generalizing st with
  | nil =>
    simp only [cursorWrapped, List.length_nil, Nat.add_zero]
    constructor
    · intro hf
      exact absurd hf (by decide)
    · intro hf
      omega
  | cons x rest ih =>
    have ih2 := ih
      { audioData := st.audioData.set st.sampleIndex x
        sampleIndex := (st.sampleIndex + 1) % FFT_SIZE } (Nat.mod_lt _ (by decide))
    dsimp only at ih2
    simp only [cursorWrapped, List.length_cons, Bool.or_eq_true, beq_iff_eq]
    rw [ih2]
    by_cases hlast : st.sampleIndex + 1 = FFT_SIZE
    · constructor
      · intro _
        omega
      · intro _
        left
        rw [hlast]
        exact Nat.mod_self _
    · have hlt : st.sampleIndex + 1 < FFT_SIZE := by omega
      rw [Nat.mod_eq_of_lt hlt]
      constructor
      · rintro (h0 | h1)
        · omega
        · omega
      · intro hle
        right
        omega

theorem flatten_length_of_lengths {α : Type} (L : Nat) (blocks : List (List α))
    (h : ∀ c ∈ blocks, c.length = L) : blocks.flatten.length = blocks.length * L := by
  induction blocks with
  | nil => simp
  | cons b bs ih =>
    rw [List.flatten_cons, List.length_append, List.length_cons,
      ih (fun c hc => h c (List.mem_cons_of_mem _ hc)), h b (List.mem_cons_self _ _)]
    ring

theorem initState_ready {α : Type} [Zero α] :
    (initState : TunerState α).sampleIndex < FFT_SIZE ∧
    (initState : TunerState α).audioData.length = FFT_SIZE :=
  ⟨(by decide : 0 < FFT_SIZE), List.length_replicate _ _⟩

theorem runCallbacks_sampleIndex {α : Type} [LinearOrderedField α]
    (spectrum : List α → Nat → α) (blocks : List (List α)) :
    (runCallbacks spectrum initState blocks).sampleIndex = blocks.flatten.length % FFT_SIZE ∧
    (runCallbacks spectrum initState blocks).audioData.length = FFT_SIZE := by
  have hr := initState_ready (α := α)
  rw [runCallbacks_eq]
  refine ⟨?_, (accumulate_inv _ _ hr.1 hr.2).2⟩
  rw [accumulate_sampleIndex _ _ hr.1]
  congr 1
  exact Nat.zero_add _

theorem detection_iff_multiple {α : Type} [LinearOrderedField α]
    (spectrum : List α → Nat → α) (blocks : List (List α)) (b : List α) :
    (accumulate (runCallbacks spectrum initState blocks) b).sampleIndex =
      (blocks.flatten.length + b.length) % FFT_SIZE := by
  obtain ⟨h1, _⟩ := runCallbacks_sampleIndex spectrum blocks
  rw [accumulate_sampleIndex _ _ (by rw [h1]; exact Nat.mod_lt _ (by decide)), h1,
    Nat.mod_add_mod]

theorem isSome_iff_cursor_zero {α : Type} [LinearOrderedField α]
    (spectrum : List α → Nat → α) (st : TunerState α) (b : List α) :
    (audioCallback spectrum st (some b)).2.isSome = true ↔
      (accumulate st b).sampleIndex = 0 := by
  rw [audioCallback_result]
  split_ifs with h
  · simp [h]
  · simp [h]

theorem two_blocks_window {α : Type} (st0 : TunerState α) (hidx : st0.sampleIndex = 0)
    (hlen : st0.audioData.length = FFT_SIZE) (b0 b : List α)
    (h0 : b0.length = FRAMES_PER_BUFFER) (h1 : b.length = FRAMES_PER_BUFFER) :
    (accumulate (accumulate st0 b0) b).audioData = b0 ++ b := by
  have hF : FRAMES_PER_BUFFER = 1024 := rfl
  have hN : FFT_SIZE = 2048 := rfl
  have hi0 : st0.sampleIndex < FFT_SIZE := by rw [hidx, hN]; omega
  have hs1 : (accumulate st0 b0).sampleIndex = FRAMES_PER_BUFFER := by
    rw [accumulate_sampleIndex _ _ hi0, hidx, h0, hF, hN]
  have hlen1 := (accumulate_inv b0 st0 hi0 hlen).2
  have hlen2 := (accumulate_inv b (accumulate st0 b0) (by rw [hs1, hF, hN]; omega) hlen1).2
  apply List.ext_getElem
  · rw [hlen2, List.length_append, h0, h1, hF, hN]
  · intro n hn1 hn2
    have d : α := (b0 ++ b)[n]
    rw [← List.getD_eq_getElem _ d hn1, ← List.getD_eq_getElem _ d hn2]
    obtain ⟨_, a2⟩ := accumulate_getD b0 st0 d hi0
      (by rw [hidx, h0, hF, hN]; omega) hlen
    obtain ⟨_, b2⟩ := accumulate_getD b (accumulate st0 b0) d
      (by rw [hs1, hF, hN]; omega) (by rw [hs1, h1, hF, hN]) hlen1
    rw [b2 n, hs1, h1]
    rw [hlen2, hN] at hn1
    by_cases hhi : FRAMES_PER_BUFFER ≤ n ∧ n < FRAMES_PER_BUFFER + FRAMES_PER_BUFFER
    · rw [if_pos hhi, List.getD_append_right _ _ _ _ (by rw [h0]; exact hhi.1), h0]
    · rw [if_neg hhi, a2 n, hidx, h0]
      have hlo : 0 ≤ n ∧ n < 0 + FRAMES_PER_BUFFER := by
        rw [hF] at *
        omega
      rw [if_pos hlo, List.getD_append _ _ _ _ (by rw [h0]; omega)]
      rfl

theorem wrapped_of_cursor_zero {α : Type} (st : TunerState α) (b : List α)
    (hst : st.sampleIndex < FFT_SIZE) (hb : 1 ≤ b.length)
    (h : (accumulate st b).sampleIndex = 0) : cursorWrapped st b = true := by
  rw [cursorWrapped_iff b st hst]
  rw [accumulate_sampleIndex b st hst] at h
  by_contra hlt
  rw [Nat.mod_eq_of_lt (not_le.mp hlt)] at h
  omega

theorem cursor_zero_of_wrapped {α : Type} (st : TunerState α) (b : List α) (L : Nat)
    (hL : L ∣ FFT_SIZE) (hst : st.sampleIndex < FFT_SIZE) (hdiv : L ∣ st.sampleIndex)
    (hb : b.length = L) (h : cursorWrapped st b = true) :
    (accumulate st b).sampleIndex = 0 := by
  rw [cursorWrapped_iff b st hst, hb] at h
  rw [accumulate_sampleIndex b st hst, hb]
  obtain ⟨q, hq⟩ := hdiv
  obtain ⟨m, hm⟩ := hL
  have hqm : q < m := by
    by_contra hc
    have : L * m ≤ L * q := Nat.mul_le_mul_left L (not_lt.mp hc)
    omega
  have hle : L * (q + 1) ≤ L * m := Nat.mul_le_mul_left L hqm
  have hsum : st.sampleIndex + L = FFT_SIZE := by
    rw [Nat.mul_add, Nat.mul_one] at hle
    omega
  rw [hsum]
  exact Nat.mod_self _

/-- C13 (as amended): from `sampleIndex = 0`, after any stream of blocks, a callback runs
the detection step exactly when the write cursor is 0 after its block has been stored,
that is when the number of samples written so far is a multiple of `FFT_SIZE`, and then
it runs it once, on the window as it is after the block. For a block of length `L ≥ 1`
a detection implies that the cursor returned to 0 during the block; when every block has
the same length `L ≥ 1` and `L` divides `FFT_SIZE` the two are equivalent. With
`L = FRAMES_PER_BUFFER = 1024` the detection runs on every second callback, and the
window then is the last `FFT_SIZE` samples of the stream in arrival order. -/
theorem detection_on_window_boundary {α : Type} [LinearOrderedField α]
    (spectrum : List α → Nat → α) (blocks : List (List α)) (b : List α) :
    (audioCallback spectrum (runCallbacks spectrum initState blocks) (some b)).2 =
      (if (blocks.flatten.length + b.length) % FFT_SIZE = 0
       then some (detect (spectrum
         (runCallbacks spectrum initState (blocks ++ [b])).audioData))
       else none) ∧
    (1 ≤ b.length →
      (audioCallback spectrum (runCallbacks spectrum initState blocks) (some b)).2.isSome
        = true →
      cursorWrapped (runCallbacks spectrum initState blocks) b = true) ∧
    (∀ L, 1 ≤ L → L ∣ FFT_SIZE → (∀ c ∈ blocks, c.length = L) → b.length = L →
      ((audioCallback spectrum (runCallbacks spectrum initState blocks) (some b)).2.isSome
          = true ↔
        cursorWrapped (runCallbacks spectrum initState blocks) b = true)) ∧
    ((∀ c ∈ blocks, c.length = FRAMES_PER_BUFFER) → b.length = FRAMES_PER_BUFFER →
      ((audioCallback spectrum (runCallbacks spectrum initState blocks) (some b)).2.isSome
          = true ↔ blocks.length % 2 = 1) ∧
      ((audioCallback spectrum (runCallbacks spectrum initState blocks) (some b)).2.isSome
          = true →
        (runCallbacks spectrum initState (blocks ++ [b])).audioData =
          (blocks ++ [b]).flatten.drop ((blocks ++ [b]).flatten.length - FFT_SIZE))) := by
  obtain ⟨hidx, hlen⟩ := runCallbacks_sampleIndex spectrum blocks
  have hlt : (runCallbacks spectrum initState blocks).sampleIndex < FFT_SIZE := by
    rw [hidx]
    exact Nat.mod_lt _ (by decide)
  have hafter : runCallbacks spectrum initState (blocks ++ [b]) =
      accumulate (runCallbacks spectrum initState blocks) b := by
    rw [runCallbacks_append]
    simp only [runCallbacks, audioCallback_state]
  have hzero := detection_iff_multiple spectrum blocks b
  refine ⟨?_, ?_, ?_, ?_⟩
  · rw [audioCallback_result, hafter, hzero]
  · intro hb hsome
    exact wrapped_of_cursor_zero _ b hlt hb ((isSome_iff_cursor_zero spectrum _ b).mp hsome)
  · intro L hL1 hLd hall hb
    rw [isSome_iff_cursor_zero]
    constructor
    · intro h
      exact wrapped_of_cursor_zero _ b hlt (by omega) h
    · intro h
      have hdiv : L ∣ (runCallbacks spectrum initState blocks).sampleIndex := by
        rw [hidx, Nat.dvd_mod_iff hLd, flatten_length_of_lengths L blocks hall]
        exact Nat.dvd_mul_left _ _
      exact cursor_zero_of_wrapped _ b L hLd hlt hdiv hb h
  · intro hall hb
    have hF : FRAMES_PER_BUFFER = 1024 := rfl
    have hN : FFT_SIZE = 2048 := rfl
    have hfl := flatten_length_of_lengths FRAMES_PER_BUFFER blocks hall
    have hiff : (audioCallback spectrum (runCallbacks spectrum initState blocks)
        (some b)).2.isSome = true ↔ blocks.length % 2 = 1 := by
      rw [isSome_iff_cursor_zero, hzero, hfl, hb, hF, hN]
      omega
    refine ⟨hiff, ?_⟩
    intro hsome
    have hodd := hiff.mp hsome
    rcases List.eq_nil_or_concat blocks with hnil | ⟨bs, b0, hcat⟩
    · rw [hnil] at hodd
      simp at hodd
    · rw [List.concat_eq_append] at hcat
      have hb0 : b0.length = FRAMES_PER_BUFFER :=
        hall b0 (by rw [hcat]; exact List.mem_append_right _ (List.mem_singleton_self _))
      have hbs : ∀ c ∈ bs, c.length = FRAMES_PER_BUFFER :=
        fun c hc => hall c (by rw [hcat]; exact List.mem_append_left _ hc)
      obtain ⟨hidx0, hlen0⟩ := runCallbacks_sampleIndex spectrum bs
      have hbsl := flatten_length_of_lengths FRAMES_PER_BUFFER bs hbs
      have heven : (runCallbacks spectrum initState bs).sampleIndex = 0 := by
        rw [hidx0, hbsl, hF, hN]
        rw [hcat, List.length_append, List.length_singleton] at hodd
        omega
      have hst : runCallbacks spectrum initState blocks =
          accumulate (runCallbacks spectrum initState bs) b0 := by
        rw [hcat, runCallbacks_append]
        simp only [runCallbacks, audioCallback_state]
      rw [hafter, hst, two_blocks_window _ heven hlen0 b0 b hb0 hb]
      have hflat : (blocks ++ [b]).flatten = bs.flatten ++ (b0 ++ b) := by
        rw [hcat]
        simp only [List.flatten_append, List.flatten_cons, List.flatten_nil,
          List.append_nil, List.append_assoc]
      rw [hflat]
      symm
      apply List.drop_left'
      rw [List.length_append, List.length_append, hb0, hb, hF, hN]
      omega

/-- C13 as stated fails: with blocks of 1000 samples, during the third block the write
cursor goes from 2000 through 2047 back to 0 and on to 952, and the callback of that
block runs no detection. -/
theorem detection_missed_on_wrap :
    cursorWrapped
        (runCallbacks (fun _ _ => (0 : ℚ)) initState
          [List.replicate 1000 0, List.replicate 1000 0])
        (List.replicate 1000 0) = true ∧
    (audioCallback (fun _ _ => (0 : ℚ))
        (runCallbacks (fun _ _ => (0 : ℚ)) initState
          [List.replicate 1000 0, List.replicate 1000 0])
        (some (List.replicate 1000 0))).2 = none := by
  have hall : ∀ c ∈ [List.replicate 1000 (0 : ℚ), List.replicate 1000 0], c.length = 1000 := by
    intro c hc
    rcases List.mem_cons.mp hc with h | h
    · rw [h]
      exact List.length_replicate _ _
    · rw [List.mem_singleton.mp h]
      exact List.length_replicate _ _
  have hfl := flatten_length_of_lengths 1000 _ hall
  obtain ⟨hidx, _⟩ := runCallbacks_sampleIndex (fun _ _ => (0 : ℚ))
    [List.replicate 1000 0, List.replicate 1000 0]
  rw [hfl] at hidx
  have hidx2 : (runCallbacks (fun _ _ => (0 : ℚ)) initState
      [List.replicate 1000 0, List.replicate 1000 0]).sampleIndex = 2000 := by
    rw [hidx]
    decide
  have hlt : (runCallbacks (fun _ _ => (0 : ℚ)) initState
      [List.replicate 1000 0, List.replicate 1000 0]).sampleIndex < FFT_SIZE := by
    rw [hidx2]
    decide
  constructor
  · rw [cursorWrapped_iff _ _ hlt, hidx2, List.length_replicate]
    decide
  · rw [audioCallback_result, accumulate_sampleIndex _ _ hlt, hidx2, List.length_replicate]
    rfl

/-- C13 (as amended) at two blocks of 1024 zero samples: the second callback detects and
the window is the two blocks in order. -/
theorem detection_on_window_boundary_witness :
    ((audioCallback (fun _ _ => (0 : ℚ))
        (runCallbacks (fun _ _ => (0 : ℚ)) initState [List.replicate FRAMES_PER_BUFFER 0])
        (some (List.replicate FRAMES_PER_BUFFER 0))).2.isSome = true ↔
      [List.replicate FRAMES_PER_BUFFER (0 : ℚ)].length % 2 = 1) ∧
    ((audioCallback (fun _ _ => (0 : ℚ))
        (runCallbacks (fun _ _ => (0 : ℚ)) initState [List.replicate FRAMES_PER_BUFFER 0])
        (some (List.replicate FRAMES_PER_BUFFER 0))).2.isSome = true →
      (runCallbacks (fun _ _ => (0 : ℚ)) initState
          ([List.replicate FRAMES_PER_BUFFER 0] ++ [List.replicate FRAMES_PER_BUFFER 0])).audioData =
        ([List.replicate FRAMES_PER_BUFFER (0 : ℚ)] ++
            [List.replicate FRAMES_PER_BUFFER 0]).flatten.drop
          (([List.replicate FRAMES_PER_BUFFER (0 : ℚ)] ++
            [List.replicate FRAMES_PER_BUFFER 0]).flatten.length - FFT_SIZE)) :=
  (detection_on_window_boundary (fun _ _ => (0 : ℚ)) [List.replicate FRAMES_PER_BUFFER 0]
      (List.replicate FRAMES_PER_BUFFER 0)).2.2.2
    (fun c hc => by
      rw [List.mem_singleton.mp hc]
      exact List.length_replicate _ _)
    (List.length_replicate _ _)

end Tuner

end AudioCpp
